import Mathlib

/-!
# Verification of the boundary-classification and index-resolution subsystem
of `adcircpy/mesh/fort14.py`.

The Python classes `BaseBoundaries`, `BarrierBaseBoundaries`,
`Fort14Boundaries` (and the seven category subclasses) are shallowly embedded
below.  Python dictionaries are modelled as insertion-ordered association
lists, Python exceptions as an explicit error type threaded through `Except`,
and the pandas node table (`mesh.nodes` / `mesh.coords`) as a list of
`(label, coordinate-row)` pairs in positional order.  The lazily cached
`@property` members of the source are pure functions here, so a "cache" has
no observable state.  Coordinate rows are opaque payload for this subsystem
(the source stores floats; nothing here computes with them), modelled as
`Int × Int`.
-/

set_option autoImplicit false

mutual

/-- The Python values that flow through the boundary subsystem: `None`,
`int`, `str`, tuples and lists (container payloads via the mutual list type
`PyVals` so that all functions stay structurally recursive). -/
inductive PyVal where
  | none
  | int (n : Int)
  | str (s : String)
  | tup (vs : PyVals)
  | list (vs : PyVals)
  deriving Repr

/-- A sequence of Python values (payload of a tuple or list). -/
inductive PyVals where
  | nil
  | cons (v : PyVal) (vs : PyVals)
  deriving Repr

end

/-- View a value sequence as a Lean list. -/
def PyVals.toList : PyVals → List PyVal
  | .nil => []
  | .cons v vs => v :: vs.toList

/-- Build a value sequence from a Lean list. -/
def PyVals.ofList : List PyVal → PyVals
  | [] => .nil
  | v :: vs => .cons v (PyVals.ofList vs)

/-- A Python list value from a Lean list. -/
def PyVal.mkList (l : List PyVal) : PyVal :=
  .list (PyVals.ofList l)

/-- A Python tuple value from a Lean list. -/
def PyVal.mkTup (l : List PyVal) : PyVal :=
  .tup (PyVals.ofList l)

mutual

/-- Python `==` on values: structural, with `int`, `str`, `tuple`, `list`
and `None` mutually unequal across kinds (no numeric cross-kind coercion is
exercised by this subsystem). -/
def PyVal.beq : PyVal → PyVal → Bool
  | .none, .none => true
  | .int a, .int b => a == b
  | .str a, .str b => a == b
  | .tup as, .tup bs => PyVals.beq as bs
  | .list as, .list bs => PyVals.beq as bs
  | _, _ => false

/-- Python `==` on value sequences: pointwise. -/
def PyVals.beq : PyVals → PyVals → Bool
  | .nil, .nil => true
  | .cons a as, .cons b bs => PyVal.beq a b && PyVals.beq as bs
  | _, _ => false

end

/-- The Python exception kinds raised by the embedded code.  `keyError` and
`indexError` are the two `LookupError` subclasses. -/
inductive PyErr where
  | keyError
  | indexError
  | valueError
  | typeError
  | attributeError
  deriving DecidableEq, Repr

/-- `KeyError` and `IndexError` are the subclasses of Python's
`LookupError`. -/
def PyErr.isLookupErr : PyErr → Bool
  | .keyError => true
  | .indexError => true
  | _ => false

/-- Decimal-integer parsing of a string, as `int(s)` does in Python for a
plain optionally-signed digit string (Python's extra whitespace/underscore
tolerance is not exercised by this subsystem). -/
def pyParseInt (s : String) : Except PyErr Int :=
  match s.data with
  | '-' :: c :: cs =>
      match digitsVal (c :: cs) with
      | Option.some n => .ok (-(n : Int))
      | Option.none => .error .valueError
  | c :: cs =>
      match digitsVal (c :: cs) with
      | Option.some n => .ok (n : Int)
      | Option.none => .error .valueError
  | [] => .error .valueError
where
  /-- Value of a nonempty all-digit character list. -/
  digitsVal : List Char → Option Nat
    | [] => Option.some 0
    | c :: cs =>
        if c.isDigit then
          (digitsVal cs).map (fun rest => (c.toNat - '0'.toNat) * 10 ^ cs.length + rest)
        else
          Option.none

/-- `int(v)` on a Python value: identity on ints, decimal parse on strings
(`ValueError` on malformed text), `TypeError` otherwise. -/
def pyInt : PyVal → Except PyErr Int
  | .int n => .ok n
  | .str s => pyParseInt s
  | _ => .error .typeError

/-- `type(v) == str` in the source. -/
def isStringTyped : PyVal → Bool
  | .str _ => true
  | _ => false

/-- The payload of a string-typed value (irrelevant default otherwise). -/
def strContent : PyVal → String
  | .str s => s
  | _ => ""

/-- `str(v)` as used by f-string interpolation in the source.  Only the
`None`, `int` and `str` cases are reached by the embedded code (type codes
and integer ids); container formatting is abbreviated one level like
Python's `repr` with nested containers elided. -/
def pyStr : PyVal → String
  | .none => "None"
  | .int n => toString n
  | .str s => s
  | .tup vs =>
      "(" ++ String.intercalate ", " (vs.toList.map pyReprShallow)
          ++ (if vs.toList.length = 1 then ",)" else ")")
  | .list vs => "[" ++ String.intercalate ", " (vs.toList.map pyReprShallow) ++ "]"
where
  pyReprShallow : PyVal → String
    | .none => "None"
    | .int n => toString n
    | .str s => "'" ++ s ++ "'"
    | .tup _ => "(...)"
    | .list _ => "[...]"

/-- `iter(v)`: lists and tuples yield their elements, strings their
characters; ints and `None` are not iterable (`TypeError`). -/
def pyIter : PyVal → Except PyErr (List PyVal)
  | .list vs => .ok vs.toList
  | .tup vs => .ok vs.toList
  | .str s => .ok (s.data.map (fun c => .str (String.singleton c)))
  | _ => .error .typeError

/-- `v[i]` for a nonnegative subscript: sequence indexing with `IndexError`
out of range, `TypeError` on non-sequences. -/
def pyGetItem (v : PyVal) (i : Nat) : Except PyErr PyVal :=
  match v with
  | .tup vs =>
      match vs.toList.get? i with
      | Option.some w => .ok w
      | Option.none => .error .indexError
  | .list vs =>
      match vs.toList.get? i with
      | Option.some w => .ok w
      | Option.none => .error .indexError
  | .str s =>
      match s.data.get? i with
      | Option.some c => .ok (.str (String.singleton c))
      | Option.none => .error .indexError
  | _ => .error .typeError

/-! ## Python dictionaries as insertion-ordered association lists -/

/-- `d[k]` lookup: first binding of the key (a Python dict never holds a key
twice; duplicate-key lists are unreachable junk states, and the theorems
that depend on it assume key-nodup well-formedness). -/
def alistGet {α : Type} (d : List (String × α)) (k : String) : Option α :=
  (d.find? (fun kv => kv.1 == k)).map (fun kv => kv.2)

/-- Last binding of a key (the value a sequence of Python dict assignments
leaves in place). -/
def alistGetLast {α : Type} (d : List (String × α)) (k : String) : Option α :=
  alistGet d.reverse k

/-- `d[k] = v`: replace in place when the key is present (Python keeps the
original position), append otherwise. -/
def alistSet {α : Type} (d : List (String × α)) (k : String) (v : α) : List (String × α) :=
  if d.any (fun kv => kv.1 == k) then
    d.map (fun kv => if kv.1 == k then (k, v) else kv)
  else
    d ++ [(k, v)]

/-- `{**base, **e}`-style update: fold the bindings of `e` into `base` with
Python assignment semantics, injecting values through `f`. -/
def alistExtend {α β : Type} (base : List (String × α)) (e : List (String × β))
    (f : β → α) : List (String × α) :=
  e.foldl (fun acc kv => alistSet acc kv.1 (f kv.2)) base

/-- A boundary-entry dict (`node_id` plus auxiliary attributes). -/
abbrev Entry := List (String × PyVal)

/-- `entry.get(k)` / `entry[k]` lookup. -/
def pyDictGet (e : Entry) (k : String) : Option PyVal :=
  alistGet e k

/-- `entry.get(k)` with Python's `None` default. -/
def pyDictGetD (e : Entry) (k : String) : PyVal :=
  (pyDictGet e k).getD .none

/-- `entry[k]` with `KeyError` on a missing key. -/
def pyDictGetItem (e : Entry) (k : String) : Except PyErr PyVal :=
  match pyDictGet e k with
  | Option.some v => .ok v
  | Option.none => .error .keyError

/-- The raw boundary dictionary: type code (`None` for the open-ocean
bucket) to ordered list of boundary entries, in insertion order. -/
abbrev RawDict := List (Option String × List Entry)

/-- Raw-dictionary key lookup. -/
def pyRawGet (d : RawDict) (k : Option String) : Option (List Entry) :=
  (d.find? (fun kv => kv.1 == k)).map (fun kv => kv.2)

/-! ## The mesh node table -/

/-- A coordinate row of `mesh.coords`; opaque payload here. -/
abbrev Coord := Int × Int

/-- The external collaborator consumed by the subsystem: the node table, an
insertion-ordered map from external node id (the pandas index label) to its
coordinate row.  `mesh.nodes.index` is `nodes.map Prod.fst`; `mesh.coords`
holds the rows in the same positional order. -/
structure Mesh where
  nodes : List (Int × Coord)
  deriving Repr

/-- Position of the first node whose label is `n` (`Index.get_loc` core). -/
def locFind (n : Int) : List (Int × Coord) → Option Nat
  | [] => Option.none
  | p :: rest =>
      if p.1 = n then Option.some 0
      else (locFind n rest).map (fun i => i + 1)

/-- `mesh.nodes.index.get_loc(n)`: positional index of label `n`, raising
`KeyError` when the label is absent. -/
def getLoc (m : Mesh) (n : Int) : Except PyErr Nat :=
  match locFind n m.nodes with
  | Option.some i => .ok i
  | Option.none => .error .keyError

/-- `mesh.coords.iloc[i]`: row by position. -/
def ilocRow (m : Mesh) (i : Nat) : Except PyErr Coord :=
  match m.nodes.get? i with
  | Option.some p => .ok p.2
  | Option.none => .error .indexError

/-- Fail-fast traversal: the effect of a Python loop or comprehension in
which each step may raise. -/
def exMapM {α β : Type} (f : α → Except PyErr β) : List α → Except PyErr (List β)
  | [] => .ok []
  | a :: as =>
      match f a with
      | .error e => .error e
      | .ok b =>
          match exMapM f as with
          | .error e => .error e
          | .ok bs => .ok (b :: bs)

/-- `mesh.coords.iloc[idxs, :].values`: rows by position, in order. -/
def ilocRows (m : Mesh) (idxs : List Nat) : Except PyErr (List Coord) :=
  exMapM (ilocRow m) idxs

/-- `mesh.coords.loc[v]`: label-based row lookup.  Any value that is not an
integer label present in the node index raises `KeyError`. -/
def locVal (m : Mesh) (v : PyVal) : Except PyErr Coord :=
  match v with
  | .int n =>
      match m.nodes.find? (fun p => p.1 == n) with
      | Option.some p => .ok p.2
      | Option.none => .error .keyError
  | _ => .error .keyError

/-- `mesh.coords.loc[labels, :].values`: rows by label, in order. -/
def locRows (m : Mesh) (labels : List PyVal) : Except PyErr (List Coord) :=
  exMapM (locVal m) labels

/-! ## Node-id resolution (`BaseBoundaries.indexes`,
`BarrierBaseBoundaries.indexes`) -/

/-- The normalization inside `BaseBoundaries.indexes`:
`int(node_id[0]) if type(node_id) == tuple else node_id if
type(node_id) == int else int(node_id)`. -/
def normalizeSingle (v : PyVal) : Except PyErr Int :=
  match v with
  | .tup vs =>
      match vs.toList with
      | [] => .error .indexError
      | w :: _ => pyInt w
  | .int n => .ok n
  | w => pyInt w

/-- The single-node resolver: normalize one external node id and look it up
through `mesh.nodes.index.get_loc`. -/
def resolveSingle (m : Mesh) (v : PyVal) : Except PyErr Nat :=
  match normalizeSingle v with
  | .error e => .error e
  | .ok n => getLoc m n

/-- `BaseBoundaries.indexes`: one index list per entry of the category dict,
in entry order, each the ordered resolver outputs over the entry's
`node_id` list. -/
def singleIndexes (m : Mesh) (data : List (Nat × Entry)) :
    Except PyErr (List (List Nat)) :=
  exMapM (fun kv =>
    match pyDictGetItem kv.2 "node_id" with
    | .error e => .error e
    | .ok nid =>
        match pyIter nid with
        | .error e => .error e
        | .ok els => exMapM (resolveSingle m) els) data

/-- One side of the paired resolver in `BarrierBaseBoundaries.indexes`:
`mesh.nodes.index.get_loc(int(x)) if type(x) == str else x`. -/
def resolveSide (m : Mesh) (v : PyVal) : Except PyErr PyVal :=
  match v with
  | .str s =>
      match pyParseInt s with
      | .error e => .error e
      | .ok n =>
          match getLoc m n with
          | .error e => .error e
          | .ok i => .ok (.int (Int.ofNat i))
  | w => .ok w

/-- Modelled from the spec's words (§4.3): a face id that is string-typed is
resolved through the node table (integer-parse, then positional lookup);
any other face id is assumed already a positional index and passed through
unchanged.  Kept separate from `resolveSide` (the source translation) so the
refinement can be stated as an equality. -/
def pairedFaceContract (m : Mesh) (v : PyVal) : Except PyErr PyVal :=
  if isStringTyped v then
    match pyInt v with
    | .error e => .error e
    | .ok n =>
        match getLoc m n with
        | .error e => .error e
        | .ok i => .ok (.int (Int.ofNat i))
  else .ok v

/-- Resolution of one `node_id` element (a front/back pair) with side
resolver `g`, in the source's left-to-right evaluation order. -/
def resolveNodePairWith (g : PyVal → Except PyErr PyVal) (e : PyVal) :
    Except PyErr (PyVal × PyVal) :=
  match pyGetItem e 0 with
  | .error er => .error er
  | .ok v0 =>
      match g v0 with
      | .error er => .error er
      | .ok a =>
          match pyGetItem e 1 with
          | .error er => .error er
          | .ok v1 =>
              match g v1 with
              | .error er => .error er
              | .ok b => .ok (a, b)

/-- The paired-index traversal shared by the source translation and the
spec-modelled contract: one pair list per entry, in entry order. -/
def barrierIndexesCore (g : PyVal → Except PyErr PyVal)
    (data : List (Nat × Entry)) : Except PyErr (List (List (PyVal × PyVal))) :=
  exMapM (fun kv =>
    match pyDictGetItem kv.2 "node_id" with
    | .error e => .error e
    | .ok nid =>
        match pyIter nid with
        | .error e => .error e
        | .ok els => exMapM (resolveNodePairWith g) els) data

/-- Resolution of one front/back pair as the source writes it. -/
def resolveNodePair (m : Mesh) : PyVal → Except PyErr (PyVal × PyVal) :=
  resolveNodePairWith (resolveSide m)

/-- `BarrierBaseBoundaries.indexes`. -/
def barrierIndexes (m : Mesh) (data : List (Nat × Entry)) :
    Except PyErr (List (List (PyVal × PyVal))) :=
  barrierIndexesCore (resolveSide m) data

/-- Modelled from the spec's words (§4.3): the same traversal with the
per-face contract applied independently to each side of each pair. -/
def barrierIndexesContract (m : Mesh) (data : List (Nat × Entry)) :
    Except PyErr (List (List (PyVal × PyVal))) :=
  barrierIndexesCore (pairedFaceContract m) data

/-! ## Geometry records (`BaseBoundaries.gdf`, `BarrierBaseBoundaries.gdf`) -/

/-- Shapely geometry as far as this subsystem constructs it: an open
polyline (`LineString`) through its coordinate rows, or a bundle of
polylines (`MultiLineString`). -/
inductive Geom where
  | line (pts : List Coord)
  | multi (faces : List (List Coord))
  deriving Repr

/-- A value of a GeoDataFrame record: a geometry or a plain Python value. -/
inductive RVal where
  | geom (g : Geom)
  | py (v : PyVal)
  deriving Repr

/-- One row of the produced GeoDataFrame: the record dict built per entry. -/
abbrev Record := List (String × RVal)

/-- Field lookup on a produced record. -/
def recordGet (r : Record) (k : String) : Option RVal :=
  alistGet r k

/-- The record dict `{'geometry': …, 'key': f'{boundary.get("ibtype")}:{bnd_id}',
'indexes': …, **boundary}` of `BaseBoundaries.gdf`. -/
def buildSingleRecord (bndId : Nat) (boundary : Entry) (rows : List Coord)
    (idxs : List Nat) : Record :=
  alistExtend
    [("geometry", RVal.geom (.line rows)),
     ("key", RVal.py (.str
        (pyStr (pyDictGetD boundary "ibtype") ++ ":" ++ pyStr (.int (Int.ofNat bndId))))),
     ("indexes", RVal.py (PyVal.mkList (idxs.map (fun i => PyVal.int (Int.ofNat i)))))]
    boundary RVal.py

/-- The record-building loop of `BaseBoundaries.gdf` over the entries zipped
with their resolved index lists. -/
def singleGdfAux (m : Mesh) : List ((Nat × Entry) × List Nat) → Except PyErr (List Record)
  | [] => .ok []
  | (be, idxs) :: rest =>
      match ilocRows m idxs with
      | .error e => .error e
      | .ok rows =>
          match singleGdfAux m rest with
          | .error e => .error e
          | .ok recs => .ok (buildSingleRecord be.1 be.2 rows idxs :: recs)

/-- `BaseBoundaries.gdf`: resolve all indexes (the lazily-computed property,
materialized on first use), then build one record per entry with
position-based (`iloc`) coordinate rows. -/
def singleGdf (m : Mesh) (data : List (Nat × Entry)) : Except PyErr (List Record) :=
  match singleIndexes m data with
  | .error e => .error e
  | .ok idxss => singleGdfAux m (data.zip idxss)

/-- The record dict `{'geometry': MultiLineString([...]), 'key': …,
**boundary}` of `BarrierBaseBoundaries.gdf`. -/
def buildBarrierRecord (bndId : Nat) (boundary : Entry)
    (frontRows backRows : List Coord) : Record :=
  alistExtend
    [("geometry", RVal.geom (.multi [frontRows, backRows])),
     ("key", RVal.py (.str
        (pyStr (pyDictGetD boundary "ibtype") ++ ":" ++ pyStr (.int (Int.ofNat bndId)))))]
    boundary RVal.py

/-- The record-building loop of `BarrierBaseBoundaries.gdf`:
`front_face, back_face = list(zip(*indexes[i]))` (a `ValueError` on an empty
pair list), then label-based (`loc`) coordinate rows per face. -/
def barrierGdfAux (m : Mesh) :
    List ((Nat × Entry) × List (PyVal × PyVal)) → Except PyErr (List Record)
  | [] => .ok []
  | (be, pairs) :: rest =>
      match pairs with
      | [] => .error .valueError
      | _ :: _ =>
          match locRows m (pairs.map Prod.fst) with
          | .error e => .error e
          | .ok frontRows =>
              match locRows m (pairs.map Prod.snd) with
              | .error e => .error e
              | .ok backRows =>
                  match barrierGdfAux m rest with
                  | .error e => .error e
                  | .ok recs => .ok (buildBarrierRecord be.1 be.2 frontRows backRows :: recs)

/-- `BarrierBaseBoundaries.gdf`. -/
def barrierGdf (m : Mesh) (data : List (Nat × Entry)) : Except PyErr (List Record) :=
  match barrierIndexes m data with
  | .error e => .error e
  | .ok idxss => barrierGdfAux m (data.zip idxss)

/-! ## Classification (`Fort14Boundaries._aggregate_boundaries`) and the
ocean view -/

/-- Python `str.endswith`: the last `len(suffix)` characters equal the
suffix. -/
def pyEndsWith (s suffix : String) : Bool :=
  decide (suffix.data.length ≤ s.data.length) &&
  decide (s.data.drop (s.data.length - suffix.data.length) = suffix.data)

/-- `{'ibtype': ibtype, **bdata}`: the tagging dict literal of
`_aggregate_boundaries` (Python dict-literal semantics: a later `ibtype`
binding inside `bdata` overrides the tag). -/
def tagEntry (ibtype : String) (e : Entry) : Entry :=
  alistExtend [("ibtype", PyVal.str ibtype)] e (fun v => v)

/-- The inner loop of `_aggregate_boundaries`: flatten one matched bucket
into the accumulated output dict, giving each flattened entry the key
`len(boundaries) + 1` at insertion time. -/
def bucketAux (ibtype : String) : List Entry → List (Nat × Entry) → List (Nat × Entry)
  | [], acc => acc
  | e :: es, acc => bucketAux ibtype es (acc ++ [(acc.length + 1, tagEntry ibtype e)])

/-- The outer loop of `_aggregate_boundaries`: skip the `None` (ocean)
bucket, take buckets whose type code ends with the suffix. -/
def aggAux (suffix : String) : RawDict → List (Nat × Entry) → List (Nat × Entry)
  | [], acc => acc
  | (Option.none, _) :: rest, acc => aggAux suffix rest acc
  | (Option.some ib, bs) :: rest, acc =>
      if pyEndsWith ib suffix then aggAux suffix rest (bucketAux ib bs acc)
      else aggAux suffix rest acc

/-- `Fort14Boundaries._aggregate_boundaries(endswith)`. -/
def aggregateBoundaries (d : RawDict) (suffix : String) : List (Nat × Entry) :=
  aggAux suffix d []

/-- Modelled from the spec's words (§4.4): the buckets selected by the
classifier, flattened in dictionary insertion order and tagged with their
originating type code, before renumbering. -/
def selectedEntries (d : RawDict) (suffix : String) : List (String × Entry) :=
  d.flatMap (fun kv =>
    match kv.1 with
    | Option.none => []
    | Option.some ib =>
        if pyEndsWith ib suffix then kv.2.map (fun e => (ib, e)) else [])

/-- Modelled from the spec's words (§4.4): assign synthetic ids
`k+1, k+2, …` in flattening order and apply the tag. -/
def numberFrom (k : Nat) : List (String × Entry) → List (Nat × Entry)
  | [] => []
  | p :: rest => (k + 1, tagEntry p.1 p.2) :: numberFrom (k + 1) rest

/-- `enumerate` over the ocean bucket: keys `0, 1, …` in order. -/
def enumEntries : Nat → List Entry → List (Nat × Entry)
  | _, [] => []
  | k, e :: es => (k, e) :: enumEntries (k + 1) es

/-- `{en: bdry for en, bdry in enumerate(self._data.get(None, []))}` — the
data of the `OceanBoundaries` view. -/
def oceanData (d : RawDict) : List (Nat × Entry) :=
  enumEntries 0 ((pyRawGet d Option.none).getD [])

/-- Total number of boundary entries across all buckets of a raw
dictionary. -/
def totalEntries (d : RawDict) : Nat :=
  (d.map (fun kv => kv.2.length)).sum

/-- The six one-character suffixes that route type codes to the land,
interior, inflow, outflow, weir and culvert categories, in that order. -/
def suffixSix : List String :=
  ["0", "1", "2", "3", "4", "5"]

/-! ## The registry (`Fort14Boundaries`) -/

/-- `Fort14Boundaries.__init__` state: the raw dictionary and the owning
mesh (the `fort14` argument; only its node table matters here). -/
structure Fort14Boundaries where
  _data : RawDict
  _mesh : Mesh

/-- `Fort14Boundaries(fort14, boundaries)`: `{}` when `boundaries` is
`None`. -/
def mkFort14Boundaries (fort14 : Mesh) (boundaries : Option RawDict) : Fort14Boundaries :=
  { _data := boundaries.getD [], _mesh := fort14 }

/-- `Fort14Boundaries.to_dict()`. -/
def Fort14Boundaries.toDict (b : Fort14Boundaries) : RawDict :=
  b._data

/-- The state of one category boundary-set object (`OceanBoundaries`,
`LandBoundaries`, …): the mesh and the per-category dict of synthetic id to
entry.  The subclass only selects which `indexes`/`gdf` functions apply. -/
structure BaseBoundaries where
  _mesh : Mesh
  _data : List (Nat × Entry)

/-- `Fort14Boundaries.ocean`. -/
def Fort14Boundaries.ocean (b : Fort14Boundaries) : Except PyErr BaseBoundaries :=
  .ok { _mesh := b._mesh, _data := oceanData b._data }

/-- `Fort14Boundaries.land`. -/
def Fort14Boundaries.land (b : Fort14Boundaries) : Except PyErr BaseBoundaries :=
  .ok { _mesh := b._mesh, _data := aggregateBoundaries b._data "0" }

/-- `Fort14Boundaries.interior`. -/
def Fort14Boundaries.interior (b : Fort14Boundaries) : Except PyErr BaseBoundaries :=
  .ok { _mesh := b._mesh, _data := aggregateBoundaries b._data "1" }

/-- `Fort14Boundaries.inflow`. -/
def Fort14Boundaries.inflow (b : Fort14Boundaries) : Except PyErr BaseBoundaries :=
  .ok { _mesh := b._mesh, _data := aggregateBoundaries b._data "2" }

/-- `Fort14Boundaries.outflow`. -/
def Fort14Boundaries.outflow (b : Fort14Boundaries) : Except PyErr BaseBoundaries :=
  .ok { _mesh := b._mesh, _data := aggregateBoundaries b._data "3" }

/-- `Fort14Boundaries.weir`. -/
def Fort14Boundaries.weir (b : Fort14Boundaries) : Except PyErr BaseBoundaries :=
  .ok { _mesh := b._mesh, _data := aggregateBoundaries b._data "4" }

/-- The attribute read `self.mesh` inside the `culvert` property.  A
`Fort14Boundaries` object carries the instance attributes `_data` and
`_mesh` (set in `__init__`) and defines the properties `ocean` … `culvert`,
`to_dict` and `plot`; no attribute or property named `mesh` exists, so this
read raises `AttributeError`. -/
def Fort14Boundaries.meshAttr (_b : Fort14Boundaries) : Except PyErr Mesh :=
  .error .attributeError

/-- `Fort14Boundaries.culvert`:
`CulvertBoundaries(self.mesh, self._aggregate_boundaries('5'))` — the
constructor arguments evaluate left to right, so the `self.mesh` read
happens first. -/
def Fort14Boundaries.culvert (b : Fort14Boundaries) : Except PyErr BaseBoundaries :=
  match b.meshAttr with
  | .error e => .error e
  | .ok m => .ok { _mesh := m, _data := aggregateBoundaries b._data "5" }

/-! ## Registry equality (`Fort14Boundaries.__eq__`) -/

/-- Python `==` between two entry dicts: equal size and, for every binding
of the left dict, a binding of the same key in the right dict with an
`==`-equal value (CPython's `dict.__eq__`). -/
def entryEqv (e₁ e₂ : Entry) : Bool :=
  e₁.length == e₂.length &&
  e₁.all (fun kv =>
    match pyDictGet e₂ kv.1 with
    | Option.some v => PyVal.beq kv.2 v
    | Option.none => false)

/-- Python `==` between two entry lists: equal length and pointwise
dict equality. -/
def entryListEqv (l₁ l₂ : List Entry) : Bool :=
  l₁.length == l₂.length && (l₁.zip l₂).all (fun p => entryEqv p.1 p.2)

/-- Python `==` between two raw boundary dictionaries. -/
def rawDictEqv (d₁ d₂ : RawDict) : Bool :=
  d₁.length == d₂.length &&
  d₁.all (fun kv =>
    match pyRawGet d₂ kv.1 with
    | Option.some l => entryListEqv kv.2 l
    | Option.none => false)

/-- `Fort14Boundaries.__eq__`: `self._data == other._data`. -/
def Fort14Boundaries.beqPy (x y : Fort14Boundaries) : Bool :=
  rawDictEqv x._data y._data

/-- Key-nodup well-formedness of an entry dict (every Python dict satisfies
it; the association-list model does not enforce it). -/
def entryWF (e : Entry) : Bool :=
  decide ((e.map Prod.fst).Nodup)

/-- Key-nodup well-formedness of a raw boundary dictionary and of each of
its entries. -/
def rawWF (d : RawDict) : Bool :=
  decide ((d.map Prod.fst).Nodup) &&
  d.all (fun kv => kv.2.all entryWF)

/-- Modelled from the spec's words (§4.5, testable property 7): two entry
dicts are equal as mappings when every key lookup agrees up to Python value
equality. -/
def EntryMapEq (e₁ e₂ : Entry) : Prop :=
  ∀ k, match pyDictGet e₁ k, pyDictGet e₂ k with
       | Option.some v₁, Option.some v₂ => PyVal.beq v₁ v₂ = true
       | Option.none, Option.none => True
       | _, _ => False

/-- Modelled from the spec's words: two buckets (entry lists) match when
both are absent, or both are present with the same length and pointwise
mapping-equal entries. -/
def BucketsMatch : Option (List Entry) → Option (List Entry) → Prop
  | Option.none, Option.none => True
  | Option.some l₁, Option.some l₂ =>
      l₁.length = l₂.length ∧
      ∀ i e₁ e₂, l₁.get? i = Option.some e₁ → l₂.get? i = Option.some e₂ → EntryMapEq e₁ e₂
  | _, _ => False

/-- Modelled from the spec's words: deep equality of two raw boundary
dictionaries as mappings — same keys, same entry lists — independent of
insertion order and of any derived cache state. -/
def MappingEq (d₁ d₂ : RawDict) : Prop :=
  ∀ k, BucketsMatch (pyRawGet d₁ k) (pyRawGet d₂ k)

/-! ## Helper lemmas -/

theorem locFind_eq_none_of_absent (n : Int) (l : List (Int × Coord))
    (h : ∀ p ∈ l, p.1 ≠ n) : locFind n l = Option.none := by
  induction l with
  | nil => rfl
  | cons p rest ih =>
      have hp : p.1 ≠ n := h p (List.mem_cons_self p rest)
      have hr : locFind n rest = Option.none :=
        ih (fun q hq => h q (List.mem_cons_of_mem p hq))
      simp [locFind, hp, hr]

theorem getLoc_keyError_of_absent (m : Mesh) (n : Int)
    (h : ∀ p ∈ m.nodes, p.1 ≠ n) : getLoc m n = .error .keyError := by
  simp [getLoc, locFind_eq_none_of_absent n m.nodes h]

theorem resolveSide_eq_contract (m : Mesh) (v : PyVal) :
    resolveSide m v = pairedFaceContract m v := by
  cases v <;> rfl

/-! ## Claim theorems -/

/-- **C2.** In `BarrierBaseBoundaries.indexes`, a face id is resolved
through the node table (integer parse, then positional lookup) exactly when
it is string-typed, and otherwise is passed through unchanged, the same rule
applied independently per side: the source traversal coincides with the
traversal built from the spec's per-face contract. -/
theorem barrier_indexes_match_paired_face_contract (m : Mesh) (data : List (Nat × Entry)) :
    barrierIndexes m data = barrierIndexesContract m data := by
  unfold barrierIndexes barrierIndexesContract
  have h : resolveSide m = pairedFaceContract m := funext (resolveSide_eq_contract m)
  rw [h]

/-- **C6.** The single-node resolver returns the same positional index for a
node id given as a native integer, as a decimal string parsing to that id,
or as a one-element tuple wrapping the integer. -/
theorem single_resolver_encoding_invariance (m : Mesh) (n : Int) (s : String) (ix : Nat)
    (hs : pyParseInt s = .ok n) (hloc : getLoc m n = .ok ix) :
    resolveSingle m (.int n) = .ok ix ∧
    resolveSingle m (.str s) = .ok ix ∧
    resolveSingle m (.tup (.cons (.int n) .nil)) = .ok ix := by
  refine ⟨?_, ?_, ?_⟩ <;>
    simp [resolveSingle, normalizeSingle, pyInt, PyVals.toList, hs, hloc]

theorem single_resolver_encoding_invariance_witness :
    resolveSingle ⟨[(101, (0, 0)), (201, (1, 1))]⟩ (.int 201) = .ok 1 ∧
    resolveSingle ⟨[(101, (0, 0)), (201, (1, 1))]⟩ (.str "201") = .ok 1 ∧
    resolveSingle ⟨[(101, (0, 0)), (201, (1, 1))]⟩ (.tup (.cons (.int 201) .nil)) = .ok 1 :=
  single_resolver_encoding_invariance ⟨[(101, (0, 0)), (201, (1, 1))]⟩ 201 "201" 1 rfl rfl

/-- **C7.** Resolving a node id absent from the node table fails with a
`KeyError` (a `LookupError`): in the single-node resolver under every
accepted encoding, and in the paired resolver for a string-typed id on the
front face and on the back face independently. -/
theorem absent_id_resolution_keyerror (m : Mesh) (n : Int) (s : String)
    (habs : ∀ p ∈ m.nodes, p.1 ≠ n) (hs : pyParseInt s = .ok n) :
    resolveSingle m (.int n) = .error .keyError ∧
    resolveSingle m (.str s) = .error .keyError ∧
    resolveSingle m (.tup (.cons (.int n) .nil)) = .error .keyError ∧
    resolveSide m (.str s) = .error .keyError ∧
    (∀ w, resolveNodePair m (PyVal.mkTup [.str s, w]) = .error .keyError) ∧
    (∀ v r, resolveSide m v = .ok r →
      resolveNodePair m (PyVal.mkTup [v, .str s]) = .error .keyError) ∧
    PyErr.isLookupErr .keyError = true := by
  have hloc : getLoc m n = .error .keyError := getLoc_keyError_of_absent m n habs
  refine ⟨?_, ?_, ?_, ?_, ?_, ?_, rfl⟩
  · simp [resolveSingle, normalizeSingle, hloc]
  · simp [resolveSingle, normalizeSingle, pyInt, hs, hloc]
  · simp [resolveSingle, normalizeSingle, pyInt, PyVals.toList, hs, hloc]
  · simp [resolveSide, hs, hloc]
  · intro w
    simp [resolveNodePair, resolveNodePairWith, pyGetItem, PyVal.mkTup, PyVals.ofList,
      PyVals.toList, resolveSide, hs, hloc]
  · intro v r hv
    simp [resolveNodePair, resolveNodePairWith, pyGetItem, PyVal.mkTup, PyVals.ofList,
      PyVals.toList, hv]
    simp [resolveSide, hs, hloc]

theorem absent_id_resolution_keyerror_witness :
    resolveSingle ⟨[(101, (0, 0))]⟩ (.int 999) = .error .keyError ∧
    resolveSingle ⟨[(101, (0, 0))]⟩ (.str "999") = .error .keyError ∧
    resolveSingle ⟨[(101, (0, 0))]⟩ (.tup (.cons (.int 999) .nil)) = .error .keyError ∧
    resolveSide ⟨[(101, (0, 0))]⟩ (.str "999") = .error .keyError ∧
    resolveNodePair ⟨[(101, (0, 0))]⟩ (PyVal.mkTup [.str "999", .int 0]) = .error .keyError ∧
    resolveNodePair ⟨[(101, (0, 0))]⟩ (PyVal.mkTup [.int 0, .str "999"]) = .error .keyError := by
  have h := absent_id_resolution_keyerror ⟨[(101, (0, 0))]⟩ 999 "999"
    (by intro p hp; simp at hp; subst hp; decide) rfl
  exact ⟨h.1, h.2.1, h.2.2.1, h.2.2.2.1, h.2.2.2.2.1 (.int 0),
    h.2.2.2.2.2.1 (.int 0) (.int 0) rfl⟩

/-- **C1.** Of the seven category accessors of the registry, six succeed and
return the view built from the absent-key bucket (ocean) or from the
`'0'`–`'4'` suffix aggregation, but `culvert` always raises
`AttributeError`: the source reads `self.mesh`, an attribute that
`Fort14Boundaries` does not define (`__init__` sets `_mesh`), before the
`'5'` aggregation is even used.  This contradicts the claim that all seven
accessors succeed. -/
theorem fort14Boundaries_culvert_accessor_raises (b : Fort14Boundaries) :
    b.ocean = .ok ⟨b._mesh, oceanData b._data⟩ ∧
    b.land = .ok ⟨b._mesh, aggregateBoundaries b._data "0"⟩ ∧
    b.interior = .ok ⟨b._mesh, aggregateBoundaries b._data "1"⟩ ∧
    b.inflow = .ok ⟨b._mesh, aggregateBoundaries b._data "2"⟩ ∧
    b.outflow = .ok ⟨b._mesh, aggregateBoundaries b._data "3"⟩ ∧
    b.weir = .ok ⟨b._mesh, aggregateBoundaries b._data "4"⟩ ∧
    b.culvert = .error .attributeError :=
  ⟨rfl, rfl, rfl, rfl, rfl, rfl, rfl⟩

/-- The node table of the C4 failing input: labels `101`, `201` differ from
the positional indices `0`, `1`. -/
def meshC4 : Mesh :=
  ⟨[(101, (0, 0)), (201, (1, 1))]⟩

/-- The barrier-category data of the C4 failing input: one entry with the
single node-id pair `("101", "201")`. -/
def dataC4 : List (Nat × Entry) :=
  [(1, [("ibtype", PyVal.str "24"),
        ("node_id", PyVal.mkList [PyVal.mkTup [.str "101", .str "201"]])])]

/-- **C4.** `BarrierBaseBoundaries.gdf` does not build the polylines from
the node-table coordinates at the resolved positional indices: the resolver
yields positions `(0, 1)`, the coordinate rows at those positions exist
(`iloc` succeeds), yet `gdf` raises `KeyError` because it feeds the
positional indices to the label-based `coords.loc` lookup. -/
theorem barrier_gdf_label_lookup_bug :
    barrierIndexes meshC4 dataC4 = .ok [[(.int 0, .int 1)]] ∧
    ilocRows meshC4 [0, 1] = .ok [(0, 0), (1, 1)] ∧
    barrierGdf meshC4 dataC4 = .error .keyError :=
  ⟨rfl, rfl, rfl⟩

/-! ## Association-list lemmas (Python dict update semantics) -/

theorem alistGet_map_set {α : Type} (d : List (String × α)) (k : String) (v : α)
    (h : d.any (fun kv => kv.1 == k) = true) :
    alistGet (d.map (fun kv => if kv.1 == k then (k, v) else kv)) k = Option.some v := by
  induction d with
  | nil => simp at h
  | cons kv rest ih =>
      cases hk : (kv.1 == k) with
      | true =>
          simp only [List.map_cons, hk, if_true]
          simp [alistGet, List.find?_cons]
      | false =>
          simp only [List.any_cons, hk, Bool.false_or] at h
          have := ih h
          simp only [List.map_cons, hk, if_false]
          simpa [alistGet, List.find?_cons, hk] using this

theorem alistGet_append_absent {α : Type} (d : List (String × α)) (k : String) (v : α)
    (h : d.any (fun kv => kv.1 == k) = false) :
    alistGet (d ++ [(k, v)]) k = Option.some v := by
  have hnone : d.find? (fun kv => kv.1 == k) = Option.none := by
    rw [List.find?_eq_none]
    intro x hx
    have := List.any_eq_false.mp h x hx
    simpa using this
  simp [alistGet, List.find?_append, hnone]

theorem alistGet_set_self {α : Type} (d : List (String × α)) (k : String) (v : α) :
    alistGet (alistSet d k v) k = Option.some v := by
  unfold alistSet
  cases h : d.any (fun kv => kv.1 == k) with
  | true =>
      rw [if_pos rfl]
      exact alistGet_map_set d k v h
  | false =>
      rw [if_neg (by simp)]
      exact alistGet_append_absent d k v h

theorem find?_map_set_other {α : Type} (d : List (String × α)) (k k' : String) (v : α)
    (hk : k' ≠ k) :
    List.find? (fun kv => kv.1 == k') (d.map (fun kv => if kv.1 == k then (k, v) else kv)) =
      List.find? (fun kv => kv.1 == k') d := by
  have hkk : (k == k') = false := by
    simp
    exact fun hh => hk hh.symm
  induction d with
  | nil => rfl
  | cons kv rest ih =>
      cases hkv : (kv.1 == k) with
      | true =>
          have h2 : (kv.1 == k') = false := by
            rw [eq_of_beq hkv]
            exact hkk
          simp only [List.map_cons, hkv, if_true]
          rw [List.find?_cons, List.find?_cons]
          simp only [hkk, h2]
          exact ih
      | false =>
          simp only [List.map_cons, hkv]
          rw [if_neg (by simp)]
          rw [List.find?_cons, List.find?_cons]
          cases hp : (kv.1 == k') with
          | true => simp [hp]
          | false => simp only [hp]; exact ih

theorem alistGet_set_other {α : Type} (d : List (String × α)) (k k' : String) (v : α)
    (hk : k' ≠ k) :
    alistGet (alistSet d k v) k' = alistGet d k' := by
  unfold alistSet
  cases h : d.any (fun kv => kv.1 == k) with
  | true =>
      rw [if_pos rfl]
      unfold alistGet
      rw [find?_map_set_other d k k' v hk]
  | false =>
      rw [if_neg (by simp)]
      have h1 : (k == k') = false := by
        simp
        exact fun hh => hk hh.symm
      simp [alistGet, List.find?_append, List.find?_cons, h1]

theorem alistGetLast_cons {α : Type} (kv : String × α) (d : List (String × α)) (k : String) :
    alistGetLast (kv :: d) k =
      match alistGetLast d k with
      | Option.some v => Option.some v
      | Option.none => if (kv.1 == k) = true then Option.some kv.2 else Option.none := by
  unfold alistGetLast alistGet
  rw [List.reverse_cons, List.find?_append]
  cases h : List.find? (fun x => x.1 == k) d.reverse with
  | some p => simp [h]
  | none =>
      cases hp : (kv.1 == k) with
      | true => simp [h, List.find?_cons, hp]
      | false => simp [h, List.find?_cons, hp]

theorem alistGet_extend {α β : Type} (base : List (String × α)) (e : List (String × β))
    (f : β → α) (k : String) :
    alistGet (alistExtend base e f) k =
      match alistGetLast e k with
      | Option.some v => Option.some (f v)
      | Option.none => alistGet base k := by
  induction e generalizing base with
  | nil => rfl
  | cons kv rest ih =>
      have hstep : alistExtend base (kv :: rest) f =
          alistExtend (alistSet base kv.1 (f kv.2)) rest f := rfl
      rw [hstep, ih, alistGetLast_cons]
      cases h : alistGetLast rest k with
      | some v => simp
      | none =>
          cases hkv : (kv.1 == k) with
          | true =>
              have hkk : kv.1 = k := eq_of_beq hkv
              simp only [hkv, if_true]
              rw [hkk, alistGet_set_self]
          | false =>
              simp only [hkv]
              rw [if_neg (by simp)]
              exact alistGet_set_other base kv.1 k (f kv.2)
                (fun hh => by simp [hh] at hkv)

/-! ## Aggregation characterization -/

theorem numberFrom_length (k : Nat) (l : List (String × Entry)) :
    (numberFrom k l).length = l.length := by
  induction l generalizing k with
  | nil => rfl
  | cons p rest ih => simp [numberFrom, ih]

theorem numberFrom_append (k : Nat) (l₁ l₂ : List (String × Entry)) :
    numberFrom k (l₁ ++ l₂) = numberFrom k l₁ ++ numberFrom (k + l₁.length) l₂ := by
  induction l₁ generalizing k with
  | nil => simp [numberFrom]
  | cons p rest ih =>
      simp only [List.cons_append, numberFrom, List.append_eq, List.length_cons]
      rw [ih (k + 1)]
      have h : k + 1 + rest.length = k + (rest.length + 1) := by omega
      rw [h]

theorem numberFrom_map_fst (k : Nat) (l : List (String × Entry)) :
    (numberFrom k l).map Prod.fst = List.range' (k + 1) l.length := by
  induction l generalizing k with
  | nil => rfl
  | cons p rest ih =>
      simp [numberFrom, List.range', ih (k + 1)]

theorem bucketAux_eq (ib : String) (es : List Entry) (acc : List (Nat × Entry)) :
    bucketAux ib es acc = acc ++ numberFrom acc.length (es.map (fun e => (ib, e))) := by
  induction es generalizing acc with
  | nil => simp [bucketAux, numberFrom]
  | cons e rest ih =>
      rw [bucketAux, ih]
      simp only [List.map_cons, numberFrom, List.length_append, List.length_singleton,
        List.append_assoc, List.singleton_append]

theorem aggAux_eq (suffix : String) (d : RawDict) (acc : List (Nat × Entry)) :
    aggAux suffix d acc = acc ++ numberFrom acc.length (selectedEntries d suffix) := by
  induction d generalizing acc with
  | nil => simp [aggAux, selectedEntries, numberFrom]
  | cons kv rest ih =>
      obtain ⟨ok, bs⟩ := kv
      cases ok with
      | none =>
          rw [show aggAux suffix ((Option.none, bs) :: rest) acc = aggAux suffix rest acc from rfl]
          rw [ih]
          simp [selectedEntries]
      | some ib =>
          cases hib : pyEndsWith ib suffix with
          | true =>
              rw [show aggAux suffix ((Option.some ib, bs) :: rest) acc =
                    (if pyEndsWith ib suffix then aggAux suffix rest (bucketAux ib bs acc)
                     else aggAux suffix rest acc) from rfl]
              rw [if_pos hib, ih, bucketAux_eq]
              have hsel : selectedEntries ((Option.some ib, bs) :: rest) suffix =
                  bs.map (fun e => (ib, e)) ++ selectedEntries rest suffix := by
                simp [selectedEntries, hib]
              rw [hsel, numberFrom_append]
              simp only [List.length_append, numberFrom_length, List.length_map,
                List.append_assoc]
          | false =>
              rw [show aggAux suffix ((Option.some ib, bs) :: rest) acc =
                    (if pyEndsWith ib suffix then aggAux suffix rest (bucketAux ib bs acc)
                     else aggAux suffix rest acc) from rfl]
              rw [if_neg (by simp [hib]), ih]
              have hsel : selectedEntries ((Option.some ib, bs) :: rest) suffix =
                  selectedEntries rest suffix := by
                simp [selectedEntries, hib]
              rw [hsel]

theorem aggregateBoundaries_eq (d : RawDict) (suffix : String) :
    aggregateBoundaries d suffix = numberFrom 0 (selectedEntries d suffix) := by
  unfold aggregateBoundaries
  rw [aggAux_eq]
  rfl

/-- **C3 (amended).** Classification skips the absent-key bucket, selects
exactly the type-code keys whose string form ends with the suffix, flattens
their entry lists preserving dictionary insertion order and within-bucket
order, assigns synthetic ids `1, 2, …, n` contiguously at insertion time,
and tags each flattened entry with its originating type code — except that
an entry which itself carries an `ibtype` attribute keeps its own value (the
`{'ibtype': ibtype, **bdata}` literal lets the entry's binding override the
tag). -/
theorem aggregate_boundaries_characterization (d : RawDict) (suffix : String) :
    aggregateBoundaries d suffix = numberFrom 0 (selectedEntries d suffix) ∧
    (aggregateBoundaries d suffix).map Prod.fst =
      List.range' 1 (selectedEntries d suffix).length ∧
    ∀ ib e, pyDictGet (tagEntry ib e) "ibtype" =
      Option.some ((alistGetLast e "ibtype").getD (PyVal.str ib)) := by
  refine ⟨aggregateBoundaries_eq d suffix, ?_, ?_⟩
  · rw [aggregateBoundaries_eq, numberFrom_map_fst]
  · intro ib e
    unfold tagEntry pyDictGet
    rw [alistGet_extend]
    cases h : alistGetLast e "ibtype" with
    | some v => simp
    | none => simp [alistGet, List.find?_cons]

/-- The C3 counterexample dictionary: a single matching bucket whose entry
already carries an `ibtype` attribute of its own. -/
def dC3 : RawDict :=
  [(Option.some "k4", [[("ibtype", PyVal.str "zzz")]])]

/-- **C3 (counterexample).** On `dC3` with suffix `"4"`, the single
flattened entry is *not* tagged with its originating type code `"k4"`: its
`ibtype` attribute remains `"zzz"`, the entry's own value, because the
`**bdata` spread overrides the tag. -/
theorem aggregate_tag_override_counterexample :
    aggregateBoundaries dC3 "4" = [(1, [("ibtype", PyVal.str "zzz")])] ∧
    pyDictGet [("ibtype", PyVal.str "zzz")] "ibtype" ≠ Option.some (PyVal.str "k4") := by
  refine ⟨rfl, fun h => ?_⟩
  have h2 : PyVal.str "zzz" = PyVal.str "k4" := Option.some.inj h
  have h3 : "zzz" = "k4" := PyVal.str.inj h2
  exact absurd h3 (by decide)

/-! ## Suffix matching and the seven-way split -/

theorem pyEndsWith_drop (c s : String) (h : pyEndsWith c s = true) :
    c.data.drop (c.data.length - s.data.length) = s.data := by
  unfold pyEndsWith at h
  rw [Bool.and_eq_true] at h
  exact of_decide_eq_true h.2

theorem suffixSix_data_len : ∀ s ∈ suffixSix, s.data.length = 1 := by
  intro s hs
  simp [suffixSix] at hs
  rcases hs with rfl | rfl | rfl | rfl | rfl | rfl <;> rfl

theorem pyEndsWith_suffixSix_unique (c : String) (s₁ s₂ : String)
    (hs₁ : s₁ ∈ suffixSix) (hs₂ : s₂ ∈ suffixSix)
    (h₁ : pyEndsWith c s₁ = true) (h₂ : pyEndsWith c s₂ = true) : s₁ = s₂ := by
  have d₁ := pyEndsWith_drop c s₁ h₁
  have d₂ := pyEndsWith_drop c s₂ h₂
  rw [suffixSix_data_len s₁ hs₁] at d₁
  rw [suffixSix_data_len s₂ hs₂] at d₂
  exact String.ext (d₁ ▸ d₂ ▸ rfl)

theorem sum_map_add (f g : String → Nat) (l : List String) :
    (l.map (fun s => f s + g s)).sum = (l.map f).sum + (l.map g).sum := by
  induction l with
  | nil => rfl
  | cons s rest ih =>
      simp only [List.map_cons, List.sum_cons, ih]
      omega

theorem sum_map_zero (p : String → Bool) (L : Nat) (l : List String)
    (h : ∀ s ∈ l, p s = false) :
    (l.map (fun s => if p s then L else 0)).sum = 0 := by
  induction l with
  | nil => rfl
  | cons s rest ih =>
      have hs := h s (List.mem_cons_self s rest)
      simp only [List.map_cons, List.sum_cons, hs]
      simpa using ih (fun t ht => h t (List.mem_cons_of_mem s ht))

theorem sum_map_if_unique (p : String → Bool) (L : Nat) (l : List String)
    (hnd : l.Nodup) (s₀ : String) (h₀ : s₀ ∈ l) (hp : p s₀ = true)
    (huni : ∀ s ∈ l, p s = true → s = s₀) :
    (l.map (fun s => if p s then L else 0)).sum = L := by
  induction l with
  | nil => cases h₀
  | cons s rest ih =>
      have hnotin : s ∉ rest := (List.nodup_cons.mp hnd).1
      have hndr : rest.Nodup := (List.nodup_cons.mp hnd).2
      rcases List.mem_cons.mp h₀ with rfl | hmem
      · have hrest : ∀ t ∈ rest, p t = false := by
          intro t ht
          cases hpt : p t with
          | false => rfl
          | true =>
              have heq : t = s₀ := huni t (List.mem_cons_of_mem s₀ ht) hpt
              exact absurd (heq ▸ ht) hnotin
        simp only [List.map_cons, List.sum_cons, hp, if_true,
          sum_map_zero p L rest hrest]
        omega
      · have hs : p s = false := by
          cases hps : p s with
          | false => rfl
          | true =>
              have heq : s = s₀ := huni s (List.mem_cons_self s rest) hps
              exact absurd (heq ▸ hmem) hnotin
        have hz : (if p s = true then L else 0) = 0 := by simp [hs]
        simp only [List.map_cons, List.sum_cons, hz, Nat.zero_add]
        exact ih hndr hmem (fun t ht hpt => huni t (List.mem_cons_of_mem s ht) hpt)

theorem enumEntries_length (k : Nat) (l : List Entry) :
    (enumEntries k l).length = l.length := by
  induction l generalizing k with
  | nil => rfl
  | cons e rest ih => simp [enumEntries, ih]

theorem pyRawGet_eq_none_of_absent (d : RawDict) (k : Option String)
    (h : ∀ kv ∈ d, kv.1 ≠ k) : pyRawGet d k = Option.none := by
  unfold pyRawGet
  rw [List.find?_eq_none.mpr]
  · rfl
  · intro kv hkv
    simpa using h kv hkv

theorem aggregate_length_eq_selected (d : RawDict) (s : String) :
    (aggregateBoundaries d s).length = (selectedEntries d s).length := by
  rw [aggregateBoundaries_eq, numberFrom_length]

theorem partition_count (d : RawDict)
    (hnd : (d.map Prod.fst).Nodup)
    (hk : ∀ c : String, Option.some c ∈ d.map Prod.fst →
        ∃ s, s ∈ suffixSix ∧ pyEndsWith c s = true) :
    (oceanData d).length + (suffixSix.map (fun s => (selectedEntries d s).length)).sum
      = totalEntries d := by
  revert hnd hk
  induction d with
  | nil => intro hnd hk; rfl
  | cons kv rest ih =>
      intro hnd hk
      obtain ⟨ok, bs⟩ := kv
      have hnotin : ok ∉ rest.map Prod.fst :=
        (List.nodup_cons.mp (by simpa using hnd)).1
      have hnd' : (rest.map Prod.fst).Nodup :=
        (List.nodup_cons.mp (by simpa using hnd)).2
      have hk' : ∀ c : String, Option.some c ∈ rest.map Prod.fst →
          ∃ s, s ∈ suffixSix ∧ pyEndsWith c s = true :=
        fun c hc => hk c (by simp [hc])
      have IH := ih hnd' hk'
      have htot : totalEntries ((ok, bs) :: rest) = bs.length + totalEntries rest := by
        simp [totalEntries]
      cases ok with
      | none =>
          have h1 : oceanData ((Option.none, bs) :: rest) = enumEntries 0 bs := rfl
          have h2 : oceanData rest = [] := by
            have hn : pyRawGet rest Option.none = Option.none :=
              pyRawGet_eq_none_of_absent rest Option.none
                (fun kv hkv heq => hnotin (heq ▸ List.mem_map_of_mem Prod.fst hkv))
            simp [oceanData, hn, enumEntries]
          have h3 : ∀ s, selectedEntries ((Option.none, bs) :: rest) s =
              selectedEntries rest s := fun s => by simp [selectedEntries]
          rw [h2] at IH
          simp only [List.length_nil, Nat.zero_add] at IH
          have hmap : suffixSix.map
              (fun s => (selectedEntries ((Option.none, bs) :: rest) s).length) =
              suffixSix.map (fun s => (selectedEntries rest s).length) :=
            List.map_congr_left (fun s _ => by rw [h3 s])
          rw [h1, hmap, enumEntries_length, htot, IH]
      | some c =>
          have h1 : oceanData ((Option.some c, bs) :: rest) = oceanData rest := rfl
          have hlen : ∀ s, (selectedEntries ((Option.some c, bs) :: rest) s).length =
              (if pyEndsWith c s then bs.length else 0) + (selectedEntries rest s).length := by
            intro s
            cases hcs : pyEndsWith c s with
            | true => simp [selectedEntries, hcs]
            | false => simp [selectedEntries, hcs]
          have hmap : suffixSix.map
              (fun s => (selectedEntries ((Option.some c, bs) :: rest) s).length) =
              suffixSix.map (fun s =>
                (if pyEndsWith c s then bs.length else 0) + (selectedEntries rest s).length) :=
            List.map_congr_left (fun s _ => hlen s)
          obtain ⟨s₀, hs₀, hp₀⟩ := hk c (by simp)
          have hsum1 : (suffixSix.map (fun s => if pyEndsWith c s then bs.length else 0)).sum =
              bs.length :=
            sum_map_if_unique (fun s => pyEndsWith c s) bs.length suffixSix (by decide)
              s₀ hs₀ hp₀
              (fun s hs hps => pyEndsWith_suffixSix_unique c s s₀ hs hs₀ hps hp₀)
          rw [h1, hmap, sum_map_add (fun s => if pyEndsWith c s then bs.length else 0)
            (fun s => (selectedEntries rest s).length) suffixSix, hsum1, htot]
          omega

/-- **C8 (amended).** Under the data-model assumption that every string type
code ends with one of the six category suffixes, the seven views partition
the raw dictionary by count: the ocean view takes the absent-key bucket and
the six suffix views together take every remaining entry, each type code
matching exactly one suffix (so no entry is duplicated across views).
Without that assumption a type code matching no suffix is dropped from all
seven views (see the counterexample). -/
theorem seven_views_partition_amended (d : RawDict)
    (hnd : (d.map Prod.fst).Nodup)
    (hk : ∀ c : String, Option.some c ∈ d.map Prod.fst →
        ∃ s, s ∈ suffixSix ∧ pyEndsWith c s = true) :
    (oceanData d).length +
      (suffixSix.map (fun s => (aggregateBoundaries d s).length)).sum = totalEntries d ∧
    (∀ c s₁ s₂, s₁ ∈ suffixSix → s₂ ∈ suffixSix →
      pyEndsWith c s₁ = true → pyEndsWith c s₂ = true → s₁ = s₂) := by
  constructor
  · have hmap : suffixSix.map (fun s => (aggregateBoundaries d s).length) =
        suffixSix.map (fun s => (selectedEntries d s).length) :=
      List.map_congr_left (fun s _ => aggregate_length_eq_selected d s)
    rw [hmap]
    exact partition_count d hnd hk
  · exact fun c s₁ s₂ h1 h2 h3 h4 => pyEndsWith_suffixSix_unique c s₁ s₂ h1 h2 h3 h4

/-- The C8 witness dictionary: an ocean bucket plus two suffix-routed
buckets. -/
def dW8 : RawDict :=
  [(Option.none, [[("node_id", PyVal.mkList [.int 1])]]),
   (Option.some "levee4", [[("x", PyVal.int 9)], [("y", PyVal.int 8)]]),
   (Option.some "20", [[("z", PyVal.int 7)]])]

theorem seven_views_partition_amended_witness :
    (oceanData dW8).length +
      (suffixSix.map (fun s => (aggregateBoundaries dW8 s).length)).sum = totalEntries dW8 :=
  (seven_views_partition_amended dW8 (by decide)
    (by
      intro c hc
      simp [dW8] at hc
      rcases hc with rfl | rfl
      · exact ⟨"4", by decide, by decide⟩
      · exact ⟨"0", by decide, by decide⟩)).1

/-- The C8 counterexample dictionary: a single bucket whose type code `"9"`
ends with none of the six suffixes. -/
def dC8 : RawDict :=
  [(Option.some "9", [[]])]

/-- **C8 (counterexample).** The raw dictionary `dC8` holds one entry, yet
the ocean view and all six suffix views are empty: the entry is dropped
from every category, refuting the claim that every entry appears in exactly
one of the seven views. -/
theorem seven_views_drop_counterexample :
    totalEntries dC8 = 1 ∧
    (oceanData dC8).length = 0 ∧
    (suffixSix.map (fun s => (aggregateBoundaries dC8 s).length)).sum = 0 :=
  ⟨rfl, rfl, by decide⟩

/-! ## Traversal lemmas -/

theorem exMapM_ok_length {α β : Type} (f : α → Except PyErr β) (l : List α) (bs : List β)
    (h : exMapM f l = .ok bs) : bs.length = l.length := by
  induction l generalizing bs with
  | nil =>
      simp only [exMapM] at h
      cases h
      rfl
  | cons a as ih =>
      simp only [exMapM] at h
      cases hf : f a with
      | error e => rw [hf] at h; cases h
      | ok b =>
          rw [hf] at h
          cases hrest : exMapM f as with
          | error e => rw [hrest] at h; cases h
          | ok bs' =>
              rw [hrest] at h
              cases h
              simp [ih bs' hrest]

theorem exMapM_ok_of_forall {α β : Type} (f : α → Except PyErr β) (l : List α)
    (h : ∀ a ∈ l, ∃ b, f a = .ok b) : ∃ bs, exMapM f l = .ok bs := by
  induction l with
  | nil => exact ⟨[], rfl⟩
  | cons a as ih =>
      obtain ⟨b, hb⟩ := h a (List.mem_cons_self a as)
      obtain ⟨bs, hbs⟩ := ih (fun x hx => h x (List.mem_cons_of_mem a hx))
      exact ⟨b :: bs, by simp [exMapM, hb, hbs]⟩

theorem exMapM_mem_ok {α β : Type} (f : α → Except PyErr β) (l : List α) (bs : List β)
    (h : exMapM f l = .ok bs) (b : β) (hb : b ∈ bs) : ∃ a ∈ l, f a = .ok b := by
  induction l generalizing bs with
  | nil =>
      simp only [exMapM] at h
      cases h
      cases hb
  | cons a as ih =>
      simp only [exMapM] at h
      cases hf : f a with
      | error e => rw [hf] at h; cases h
      | ok b' =>
          rw [hf] at h
          cases hrest : exMapM f as with
          | error e => rw [hrest] at h; cases h
          | ok bs' =>
              rw [hrest] at h
              cases h
              rcases List.mem_cons.mp hb with rfl | hmem
              · exact ⟨a, List.mem_cons_self a as, hf⟩
              · obtain ⟨x, hx, hfx⟩ := ih bs' hrest hmem
                exact ⟨x, List.mem_cons_of_mem a hx, hfx⟩

theorem zip_mem_right_total {α β : Type} (l₁ : List α) (l₂ : List β)
    (hlen : l₁.length = l₂.length) (b : β) (hb : b ∈ l₂) :
    ∃ a, (a, b) ∈ l₁.zip l₂ := by
  induction l₁ generalizing l₂ with
  | nil =>
      cases l₂ with
      | nil => cases hb
      | cons x xs => cases hlen
  | cons a as ih =>
      cases l₂ with
      | nil => cases hb
      | cons x xs =>
          rcases List.mem_cons.mp hb with rfl | hmem
          · exact ⟨a, List.mem_cons_self _ _⟩
          · obtain ⟨a', ha'⟩ := ih xs (by simpa using hlen) hmem
            exact ⟨a', List.mem_cons_of_mem _ ha'⟩

/-! ## The empty-pair `ValueError` of `BarrierBaseBoundaries.gdf` -/

theorem barrierGdfAux_char (m : Mesh) (zl : List ((Nat × Entry) × List (PyVal × PyVal)))
    (hloc : ∀ pr ∈ zl, ∀ p ∈ pr.2,
        (∃ c, locVal m p.1 = .ok c) ∧ (∃ c, locVal m p.2 = .ok c)) :
    (barrierGdfAux m zl = .error .valueError ↔ ∃ pr ∈ zl, pr.2 = []) ∧
    ((∀ pr ∈ zl, pr.2 ≠ []) → ∃ recs, barrierGdfAux m zl = .ok recs) := by
  induction zl with
  | nil =>
      constructor
      · constructor
        · intro h
          cases h
        · rintro ⟨pr, hpr, _⟩
          cases hpr
      · intro _
        exact ⟨[], rfl⟩
  | cons hd rest ih =>
      obtain ⟨be, pairs⟩ := hd
      have hloc' : ∀ pr ∈ rest, ∀ p ∈ pr.2,
          (∃ c, locVal m p.1 = .ok c) ∧ (∃ c, locVal m p.2 = .ok c) :=
        fun pr hpr => hloc pr (List.mem_cons_of_mem _ hpr)
      have IH := ih hloc'
      cases pairs with
      | nil =>
          constructor
          · constructor
            · intro _
              exact ⟨(be, []), List.mem_cons_self _ _, rfl⟩
            · intro _
              rfl
          · intro hall
            exact absurd rfl (hall (be, []) (List.mem_cons_self _ _))
      | cons p ps =>
          have hfront : ∃ rows, locRows m ((p :: ps).map Prod.fst) = .ok rows := by
            apply exMapM_ok_of_forall
            intro v hv
            obtain ⟨q, hq, hq2⟩ := List.mem_map.mp hv
            obtain ⟨c, hc⟩ := (hloc (be, p :: ps) (List.mem_cons_self _ _) q hq).1
            exact ⟨c, hq2 ▸ hc⟩
          obtain ⟨fr, hfr⟩ := hfront
          have hback : ∃ rows, locRows m ((p :: ps).map Prod.snd) = .ok rows := by
            apply exMapM_ok_of_forall
            intro v hv
            obtain ⟨q, hq, hq2⟩ := List.mem_map.mp hv
            obtain ⟨c, hc⟩ := (hloc (be, p :: ps) (List.mem_cons_self _ _) q hq).2
            exact ⟨c, hq2 ▸ hc⟩
          obtain ⟨bk, hbk⟩ := hback
          have hstep : barrierGdfAux m ((be, p :: ps) :: rest) =
              match barrierGdfAux m rest with
              | .error e => .error e
              | .ok recs => .ok (buildBarrierRecord be.1 be.2 fr bk :: recs) := by
            simp only [barrierGdfAux]
            rw [hfr, hbk]
          constructor
          · rw [hstep]
            cases hrest : barrierGdfAux m rest with
            | error e =>
                constructor
                · intro h
                  have he : e = .valueError := by cases h; rfl
                  subst he
                  obtain ⟨pr, hpr, hpr2⟩ := (IH.1).mp hrest
                  exact ⟨pr, List.mem_cons_of_mem _ hpr, hpr2⟩
                · rintro ⟨pr, hpr, hpr2⟩
                  rcases List.mem_cons.mp hpr with heq | hmem
                  · rw [heq] at hpr2
                    cases hpr2
                  · have hv := (IH.1).mpr ⟨pr, hmem, hpr2⟩
                    rw [hrest] at hv
                    cases hv
                    rfl
            | ok recs =>
                constructor
                · intro h; cases h
                · rintro ⟨pr, hpr, hpr2⟩
                  rcases List.mem_cons.mp hpr with heq | hmem
                  · rw [heq] at hpr2
                    cases hpr2
                  · have hv := (IH.1).mpr ⟨pr, hmem, hpr2⟩
                    rw [hrest] at hv
                    cases hv
          · intro hall
            obtain ⟨recs, hrecs⟩ := IH.2
              (fun pr hpr => hall pr (List.mem_cons_of_mem _ hpr))
            exact ⟨buildBarrierRecord be.1 be.2 fr bk :: recs, by rw [hstep, hrecs]⟩

/-- **C9.** For barrier-category data whose ids all resolve (`h1`) and whose
resolved face values are present node labels (`h2`, the condition under
which the label-based row lookups succeed), requesting the geometry fails
with `ValueError` exactly when some entry has an empty node-id-pair list
(the unzip of an empty sequence), and succeeds when every entry has at
least one pair. -/
theorem barrier_gdf_empty_pairs_valueerror_iff (m : Mesh) (data : List (Nat × Entry))
    (idxss : List (List (PyVal × PyVal)))
    (h1 : barrierIndexes m data = .ok idxss)
    (h2 : ∀ l ∈ idxss, ∀ p ∈ l,
        (∃ c, locVal m p.1 = .ok c) ∧ (∃ c, locVal m p.2 = .ok c)) :
    (barrierGdf m data = .error .valueError ↔ ∃ l ∈ idxss, l = []) ∧
    ((∀ l ∈ idxss, l ≠ []) → ∃ recs, barrierGdf m data = .ok recs) := by
  have hlen : idxss.length = data.length :=
    exMapM_ok_length _ data idxss h1
  have hgdf : barrierGdf m data = barrierGdfAux m (data.zip idxss) := by
    unfold barrierGdf
    rw [h1]
  have hloc : ∀ pr ∈ data.zip idxss, ∀ p ∈ pr.2,
      (∃ c, locVal m p.1 = .ok c) ∧ (∃ c, locVal m p.2 = .ok c) := by
    rintro ⟨a, b⟩ hpr p hp
    exact h2 b (List.of_mem_zip hpr).2 p hp
  have hchar := barrierGdfAux_char m (data.zip idxss) hloc
  constructor
  · rw [hgdf, hchar.1]
    constructor
    · rintro ⟨⟨a, b⟩, hpr, hb⟩
      exact ⟨b, (List.of_mem_zip hpr).2, hb⟩
    · rintro ⟨l, hl, hleq⟩
      obtain ⟨a, ha⟩ := zip_mem_right_total data idxss hlen.symm l hl
      exact ⟨(a, l), ha, hleq⟩
  · intro hall
    rw [hgdf]
    refine hchar.2 ?_
    rintro ⟨a, b⟩ hpr
    exact hall b (List.of_mem_zip hpr).2

theorem barrier_gdf_empty_pairs_valueerror_iff_witness :
    barrierGdf ⟨[(0, (0, 0)), (1, (1, 1))]⟩ [(1, [("node_id", PyVal.mkList [])])] =
      .error .valueError := by
  have h := barrier_gdf_empty_pairs_valueerror_iff ⟨[(0, (0, 0)), (1, (1, 1))]⟩
    [(1, [("node_id", PyVal.mkList [])])] [[]] rfl
    (by
      intro l hl p hp
      simp at hl
      subst hl
      cases hp)
  exact (h.1).mpr ⟨[], by simp, rfl⟩

/-! ## The ocean view's geometry records (`BaseBoundaries.gdf` keys) -/

theorem locFind_lt (n : Int) (l : List (Int × Coord)) (i : Nat)
    (h : locFind n l = Option.some i) : i < l.length := by
  induction l generalizing i with
  | nil => cases h
  | cons p rest ih =>
      unfold locFind at h
      by_cases hp : p.1 = n
      · rw [if_pos hp] at h
        cases h
        simp
      · rw [if_neg hp] at h
        cases hj : locFind n rest with
        | none => rw [hj] at h; cases h
        | some j =>
            rw [hj] at h
            cases h
            have := ih j hj
            simp
            omega

theorem resolveSingle_ok_lt (m : Mesh) (v : PyVal) (i : Nat)
    (h : resolveSingle m v = .ok i) : i < m.nodes.length := by
  unfold resolveSingle at h
  split at h
  · cases h
  · rename_i n hn
    unfold getLoc at h
    split at h
    · rename_i j hf
      cases h
      exact locFind_lt n m.nodes _ hf
    · cases h

theorem singleIndexes_ok_bounds (m : Mesh) (data : List (Nat × Entry))
    (idxss : List (List Nat)) (h : singleIndexes m data = .ok idxss) :
    ∀ idxs ∈ idxss, ∀ i ∈ idxs, i < m.nodes.length := by
  intro idxs hidxs i hi
  obtain ⟨kv, _, hfkv⟩ := exMapM_mem_ok _ data idxss h idxs hidxs
  split at hfkv
  · cases hfkv
  · split at hfkv
    · cases hfkv
    · obtain ⟨el, _, hel⟩ := exMapM_mem_ok _ _ idxs hfkv i hi
      exact resolveSingle_ok_lt m el i hel

theorem ilocRows_ok_of_bounds (m : Mesh) (idxs : List Nat)
    (h : ∀ i ∈ idxs, i < m.nodes.length) : ∃ rows, ilocRows m idxs = .ok rows := by
  apply exMapM_ok_of_forall
  intro i hi
  have hlt := h i hi
  unfold ilocRow
  cases hg : m.nodes.get? i with
  | none =>
      rw [List.get?_eq_none] at hg
      omega
  | some p => exact ⟨p.2, rfl⟩

theorem zip_get?_eq {α β : Type} (l₁ : List α) (l₂ : List β) (i : Nat) :
    (l₁.zip l₂).get? i =
      (l₁.get? i).bind (fun a => (l₂.get? i).map (fun b => (a, b))) := by
  induction l₁ generalizing l₂ i with
  | nil => simp
  | cons a as ih =>
      cases l₂ with
      | nil => cases i <;> simp
      | cons b bs =>
          cases i with
          | zero => simp
          | succ n => simpa using ih bs n

theorem enumEntries_get? (k : Nat) (l : List Entry) (i : Nat) :
    (enumEntries k l).get? i = (l.get? i).map (fun e => (k + i, e)) := by
  induction l generalizing k i with
  | nil => simp [enumEntries]
  | cons e rest ih =>
      cases i with
      | zero => simp [enumEntries]
      | succ n =>
          simp only [enumEntries, List.get?_cons_succ, ih (k + 1) n]
          have : k + 1 + n = k + (n + 1) := by omega
          rw [this]

theorem alistGetLast_eq_none {α : Type} (d : List (String × α)) (k : String)
    (h : alistGet d k = Option.none) : alistGetLast d k = Option.none := by
  have h' : d.find? (fun kv => kv.1 == k) = Option.none := by
    cases hf : d.find? (fun kv => kv.1 == k) with
    | none => rfl
    | some p => unfold alistGet at h; rw [hf] at h; cases h
  rw [List.find?_eq_none] at h'
  unfold alistGetLast alistGet
  rw [List.find?_eq_none.mpr]
  · rfl
  · intro kv hkv
    exact h' kv (List.mem_reverse.mp hkv)

theorem buildSingleRecord_fields (bid : Nat) (boundary : Entry) (rows : List Coord)
    (idxs : List Nat)
    (hib : pyDictGet boundary "ibtype" = Option.none)
    (hkey : pyDictGet boundary "key" = Option.none)
    (hidx : pyDictGet boundary "indexes" = Option.none) :
    recordGet (buildSingleRecord bid boundary rows idxs) "key" =
      Option.some (RVal.py (.str ("None:" ++ toString bid))) ∧
    recordGet (buildSingleRecord bid boundary rows idxs) "indexes" =
      Option.some (RVal.py (PyVal.mkList (idxs.map (fun j => PyVal.int (Int.ofNat j))))) := by
  have hibD : pyDictGetD boundary "ibtype" = PyVal.none := by
    unfold pyDictGetD
    rw [hib]
    rfl
  unfold buildSingleRecord recordGet
  rw [hibD]
  constructor
  · rw [alistGet_extend, alistGetLast_eq_none boundary "key" hkey]
    simp only [alistGet, List.find?_cons, pyStr]
    simp
    rfl
  · rw [alistGet_extend, alistGetLast_eq_none boundary "indexes" hidx]
    simp [alistGet, List.find?_cons]

theorem singleGdfAux_ok (m : Mesh) (zl : List ((Nat × Entry) × List Nat))
    (hrows : ∀ pr ∈ zl, ∃ rows, ilocRows m pr.2 = .ok rows) :
    ∃ recs, singleGdfAux m zl = .ok recs ∧ recs.length = zl.length ∧
      ∀ i pr rec, zl.get? i = Option.some pr → recs.get? i = Option.some rec →
        ∃ rows, rec = buildSingleRecord pr.1.1 pr.1.2 rows pr.2 := by
  induction zl with
  | nil =>
      refine ⟨[], rfl, rfl, ?_⟩
      intro i pr rec h
      simp at h
  | cons hd rest ih =>
      obtain ⟨be, idxs⟩ := hd
      obtain ⟨rows, hr⟩ := hrows (be, idxs) (List.mem_cons_self _ _)
      obtain ⟨recs, hok, hlen, hfield⟩ :=
        ih (fun pr hpr => hrows pr (List.mem_cons_of_mem _ hpr))
      refine ⟨buildSingleRecord be.1 be.2 rows idxs :: recs, ?_, ?_, ?_⟩
      · simp only [singleGdfAux]
        rw [hr, hok]
      · simp [hlen]
      · intro i pr rec hz hr2
        cases i with
        | zero =>
            simp only [List.get?_cons_zero] at hz hr2
            cases hz
            cases hr2
            exact ⟨rows, rfl⟩
        | succ n =>
            simp only [List.get?_cons_succ] at hz hr2
            exact hfield n pr rec hz hr2

/-- **C10.** For an ocean view (built from the absent-key bucket, whose
entries carry no type code and no `key`/`indexes` attribute of their own)
whose node ids all resolve, the geometry builder succeeds and each record's
metadata key is literally `"None:<entry-id>"` with entry ids enumerated
from 0, and each record carries the entry's full resolved index list under
the field `"indexes"`. -/
theorem ocean_gdf_key_and_indexes_fields (m : Mesh) (d : RawDict) (idxss : List (List Nat))
    (h1 : singleIndexes m (oceanData d) = .ok idxss)
    (h2 : ∀ e ∈ (pyRawGet d Option.none).getD [],
        pyDictGet e "ibtype" = Option.none ∧ pyDictGet e "key" = Option.none ∧
        pyDictGet e "indexes" = Option.none) :
    ∃ recs, singleGdf m (oceanData d) = .ok recs ∧ recs.length = (oceanData d).length ∧
      ∀ i rec idxs, recs.get? i = Option.some rec → idxss.get? i = Option.some idxs →
        recordGet rec "key" = Option.some (RVal.py (.str ("None:" ++ toString i))) ∧
        recordGet rec "indexes" =
          Option.some (RVal.py (PyVal.mkList (idxs.map (fun j => PyVal.int (Int.ofNat j))))) := by
  have hb := singleIndexes_ok_bounds m (oceanData d) idxss h1
  have hlen : idxss.length = (oceanData d).length := exMapM_ok_length _ _ _ h1
  have hrows : ∀ pr ∈ (oceanData d).zip idxss, ∃ rows, ilocRows m pr.2 = .ok rows := by
    rintro ⟨a, b⟩ hpr
    exact ilocRows_ok_of_bounds m b (hb b (List.of_mem_zip hpr).2)
  obtain ⟨recs, hok, hlenr, hfield⟩ := singleGdfAux_ok m ((oceanData d).zip idxss) hrows
  have hzlen : ((oceanData d).zip idxss).length = (oceanData d).length := by
    rw [List.length_zip, hlen, Nat.min_self]
  refine ⟨recs, ?_, ?_, ?_⟩
  · unfold singleGdf
    rw [h1]
    exact hok
  · rw [hlenr, hzlen]
  · intro i rec idxs hrec hidxs
    have hi : i < (oceanData d).length := by
      have h3 : i < recs.length := by
        cases hq : recs.get? i with
        | none => rw [hq] at hrec; cases hrec
        | some r => exact (List.get?_eq_some.mp hq).1
      omega
    have hcell : ∃ e, ((pyRawGet d Option.none).getD []).get? i = Option.some e := by
      unfold oceanData at hi
      rw [enumEntries_length] at hi
      cases hq : ((pyRawGet d Option.none).getD []).get? i with
      | none =>
          rw [List.get?_eq_none] at hq
          omega
      | some e => exact ⟨e, rfl⟩
    obtain ⟨e, he⟩ := hcell
    have hocean : (oceanData d).get? i = Option.some (i, e) := by
      unfold oceanData
      rw [enumEntries_get?, he]
      simp
    have hz : ((oceanData d).zip idxss).get? i = Option.some ((i, e), idxs) := by
      rw [zip_get?_eq, hocean, hidxs]
      rfl
    obtain ⟨rows, hrec_eq⟩ := hfield i ((i, e), idxs) rec hz hrec
    rw [hrec_eq]
    exact buildSingleRecord_fields i e rows idxs
      (h2 e (List.get?_mem he)).1 (h2 e (List.get?_mem he)).2.1 (h2 e (List.get?_mem he)).2.2

/-- The C10 witness mesh. -/
def mW10 : Mesh :=
  ⟨[(101, (0, 0)), (201, (1, 1))]⟩

/-- The C10 witness raw dictionary: one ocean entry under the absent key. -/
def dW10 : RawDict :=
  [(Option.none, [[("node_id", PyVal.mkList [.str "101", .str "201"])]])]

/-- The record list `singleGdf` produces on the C10 witness input. -/
def recsW10 : List Record :=
  [[("geometry", RVal.geom (.line [(0, 0), (1, 1)])),
    ("key", RVal.py (.str "None:0")),
    ("indexes", RVal.py (PyVal.mkList [.int 0, .int 1])),
    ("node_id", RVal.py (PyVal.mkList [.str "101", .str "201"]))]]

theorem ocean_gdf_key_and_indexes_fields_witness :
    singleGdf mW10 (oceanData dW10) = .ok recsW10 ∧
    recordGet (recsW10.headD []) "key" = Option.some (RVal.py (.str "None:0")) ∧
    recordGet (recsW10.headD []) "indexes" =
      Option.some (RVal.py (PyVal.mkList [.int 0, .int 1])) := by
  obtain ⟨recs, hok, hlen, hf⟩ := ocean_gdf_key_and_indexes_fields mW10 dW10 [[0, 1]] rfl
    (by
      intro e he
      simp [dW10, pyRawGet] at he
      subst he
      exact ⟨rfl, rfl, rfl⟩)
  have hconc : singleGdf mW10 (oceanData dW10) = .ok recsW10 := rfl
  have hrecs : recs = recsW10 := by
    rw [hok] at hconc
    exact Except.ok.inj hconc
  have hf0 := hf 0 (recsW10.headD []) [0, 1] (by rw [hrecs]; rfl) rfl
  exact ⟨hconc, hf0.1, hf0.2⟩

/-! ## Registry equality: value and dictionary lemmas -/

mutual

theorem PyVal.beq_refl : (v : PyVal) → PyVal.beq v v = true
  | .none => rfl
  | .int n => by simp [PyVal.beq]
  | .str s => by simp [PyVal.beq]
  | .tup vs => by simp [PyVal.beq, PyVals.beqSeq_refl vs]
  | .list vs => by simp [PyVal.beq, PyVals.beqSeq_refl vs]

theorem PyVals.beqSeq_refl : (vs : PyVals) → PyVals.beq vs vs = true
  | .nil => rfl
  | .cons v vs => by simp [PyVals.beq, PyVal.beq_refl v, PyVals.beqSeq_refl vs]

end

theorem find?_key_self {κ α : Type} [BEq κ] [LawfulBEq κ] (d : List (κ × α)) (kv : κ × α)
    (hmem : kv ∈ d) (hnd : (d.map Prod.fst).Nodup) :
    d.find? (fun x => x.1 == kv.1) = Option.some kv := by
  induction d with
  | nil => cases hmem
  | cons hd rest ih =>
      have hnotin : hd.1 ∉ rest.map Prod.fst :=
        (List.nodup_cons.mp (by simpa using hnd)).1
      have hndr : (rest.map Prod.fst).Nodup :=
        (List.nodup_cons.mp (by simpa using hnd)).2
      rcases List.mem_cons.mp hmem with rfl | hmem'
      · rw [List.find?_cons_of_pos _ (by simp)]
      · have hne : ¬((hd.1 == kv.1) = true) := by
          simp only [beq_iff_eq]
          intro he
          exact hnotin (he ▸ List.mem_map_of_mem Prod.fst hmem')
        rw [List.find?_cons_of_neg (p := fun x => x.1 == kv.1) rest hne]
        exact ih hmem' hndr

theorem find?_key_none_iff {κ α : Type} [BEq κ] [LawfulBEq κ] (d : List (κ × α)) (k : κ) :
    d.find? (fun x => x.1 == k) = Option.none ↔ k ∉ d.map Prod.fst := by
  rw [List.find?_eq_none]
  constructor
  · intro h hk
    obtain ⟨kv, hkv, hkv2⟩ := List.mem_map.mp hk
    exact (h kv hkv) (by simp [hkv2])
  · intro h kv hkv
    simp only [beq_iff_eq]
    intro he
    exact h (he ▸ List.mem_map_of_mem Prod.fst hkv)

theorem pyRawGet_self_of_nodup (d : RawDict) (kv : Option String × List Entry)
    (hmem : kv ∈ d) (hnd : (d.map Prod.fst).Nodup) :
    pyRawGet d kv.1 = Option.some kv.2 := by
  unfold pyRawGet
  rw [find?_key_self d kv hmem hnd]
  rfl

theorem alistGet_self_of_nodup {α : Type} (d : List (String × α)) (kv : String × α)
    (hmem : kv ∈ d) (hnd : (d.map Prod.fst).Nodup) :
    alistGet d kv.1 = Option.some kv.2 := by
  unfold alistGet
  rw [find?_key_self d kv hmem hnd]
  rfl

theorem pyRawGet_some_mem (d : RawDict) (k : Option String) (l : List Entry)
    (h : pyRawGet d k = Option.some l) :
    ∃ kv, kv ∈ d ∧ kv.1 = k ∧ kv.2 = l := by
  unfold pyRawGet at h
  cases hf : d.find? (fun kv => kv.1 == k) with
  | none => rw [hf] at h; cases h
  | some kv =>
      rw [hf] at h
      cases h
      exact ⟨kv, List.mem_of_find?_eq_some hf, by simpa using List.find?_some hf, rfl⟩

theorem alistGet_some_mem {α : Type} (d : List (String × α)) (k : String) (v : α)
    (h : alistGet d k = Option.some v) :
    ∃ kv, kv ∈ d ∧ kv.1 = k ∧ kv.2 = v := by
  unfold alistGet at h
  cases hf : d.find? (fun kv => kv.1 == k) with
  | none => rw [hf] at h; cases h
  | some kv =>
      rw [hf] at h
      cases h
      exact ⟨kv, List.mem_of_find?_eq_some hf, by simpa using List.find?_some hf, rfl⟩

theorem pyRawGet_eq_none_iff (d : RawDict) (k : Option String) :
    pyRawGet d k = Option.none ↔ k ∉ d.map Prod.fst := by
  unfold pyRawGet
  rw [← find?_key_none_iff]
  cases d.find? (fun kv => kv.1 == k) <;> simp

theorem pyDictGet_eq_none_iff (d : Entry) (k : String) :
    pyDictGet d k = Option.none ↔ k ∉ d.map Prod.fst := by
  unfold pyDictGet alistGet
  rw [← find?_key_none_iff]
  cases d.find? (fun kv => kv.1 == k) <;> simp

theorem rawWF_nodup (d : RawDict) (h : rawWF d = true) : (d.map Prod.fst).Nodup := by
  unfold rawWF at h
  rw [Bool.and_eq_true] at h
  exact of_decide_eq_true h.1

theorem rawWF_entry (d : RawDict) (h : rawWF d = true) (kv : Option String × List Entry)
    (hkv : kv ∈ d) (e : Entry) (he : e ∈ kv.2) : (e.map Prod.fst).Nodup := by
  unfold rawWF at h
  rw [Bool.and_eq_true] at h
  have h2 := List.all_eq_true.mp h.2 kv hkv
  have h3 := List.all_eq_true.mp h2 e he
  exact of_decide_eq_true h3

theorem keys_perm_of_mem_iff {κ : Type} (l₁ l₂ : List κ) (h₁ : l₁.Nodup) (h₂ : l₂.Nodup)
    (h : ∀ k, k ∈ l₁ ↔ k ∈ l₂) : l₁.Perm l₂ :=
  (List.perm_ext_iff_of_nodup h₁ h₂).mpr h

theorem mem_of_mem_of_subset_nodup {κ : Type} (l₁ l₂ : List κ) (h₁ : l₁.Nodup)
    (hsub : l₁ ⊆ l₂) (hlen : l₂.length ≤ l₁.length) (k : κ) (hk : k ∈ l₂) : k ∈ l₁ :=
  ((h₁.subperm hsub).perm_of_length_le hlen).mem_iff.mpr hk

theorem entryEqv_length (e₁ e₂ : Entry) (h : entryEqv e₁ e₂ = true) :
    e₁.length = e₂.length := by
  unfold entryEqv at h
  rw [Bool.and_eq_true] at h
  exact eq_of_beq h.1

theorem entryEqv_lookup (e₁ e₂ : Entry) (h : entryEqv e₁ e₂ = true)
    (p : String × PyVal) (hp : p ∈ e₁) :
    ∃ w, pyDictGet e₂ p.1 = Option.some w ∧ PyVal.beq p.2 w = true := by
  unfold entryEqv at h
  rw [Bool.and_eq_true] at h
  have hq : (match pyDictGet e₂ p.1 with
      | Option.some v => PyVal.beq p.2 v
      | Option.none => false) = true :=
    List.all_eq_true.mp h.2 p hp
  cases hg : pyDictGet e₂ p.1 with
  | none => rw [hg] at hq; cases hq
  | some w =>
      rw [hg] at hq
      exact ⟨w, rfl, hq⟩

theorem entry_mapEq_of_eqv (e₁ e₂ : Entry) (h : entryEqv e₁ e₂ = true)
    (h₁ : (e₁.map Prod.fst).Nodup) (_h₂ : (e₂.map Prod.fst).Nodup) :
    EntryMapEq e₁ e₂ := by
  intro k
  cases hg : pyDictGet e₁ k with
  | some v =>
      obtain ⟨p, hp, hpk, hpv⟩ := alistGet_some_mem e₁ k v hg
      obtain ⟨w, hw, hbw⟩ := entryEqv_lookup e₁ e₂ h p hp
      rw [hpk] at hw
      rw [hw]
      exact hpv ▸ hbw
  | none =>
      have hnot1 : k ∉ e₁.map Prod.fst := (pyDictGet_eq_none_iff e₁ k).mp hg
      have hsub : e₁.map Prod.fst ⊆ e₂.map Prod.fst := by
        intro x hx
        obtain ⟨p, hp, hpx⟩ := List.mem_map.mp hx
        obtain ⟨w, hw, _⟩ := entryEqv_lookup e₁ e₂ h p hp
        obtain ⟨q, hq, hqk, _⟩ := alistGet_some_mem e₂ p.1 w hw
        exact hpx ▸ hqk ▸ List.mem_map_of_mem Prod.fst hq
      have hlen := entryEqv_length e₁ e₂ h
      have hlen2 : (e₂.map Prod.fst).length ≤ (e₁.map Prod.fst).length := by
        simp [hlen]
      have hg2 : pyDictGet e₂ k = Option.none := by
        rw [pyDictGet_eq_none_iff]
        intro hk2
        exact hnot1 (mem_of_mem_of_subset_nodup _ _ h₁ hsub hlen2 k hk2)
      rw [hg2]
      trivial

theorem entry_eqv_of_mapEq (e₁ e₂ : Entry) (h : EntryMapEq e₁ e₂)
    (h₁ : (e₁.map Prod.fst).Nodup) (h₂ : (e₂.map Prod.fst).Nodup) :
    entryEqv e₁ e₂ = true := by
  have hmem : ∀ k, k ∈ e₁.map Prod.fst ↔ k ∈ e₂.map Prod.fst := by
    intro k
    constructor
    · intro hk
      by_contra hk2
      have hn2 : pyDictGet e₂ k = Option.none := (pyDictGet_eq_none_iff e₂ k).mpr hk2
      have hh := h k
      rw [hn2] at hh
      cases hg : pyDictGet e₁ k with
      | none => exact ((pyDictGet_eq_none_iff e₁ k).mp hg) hk
      | some v => rw [hg] at hh; exact hh
    · intro hk
      by_contra hk2
      have hn1 : pyDictGet e₁ k = Option.none := (pyDictGet_eq_none_iff e₁ k).mpr hk2
      have hh := h k
      rw [hn1] at hh
      cases hg : pyDictGet e₂ k with
      | none => exact ((pyDictGet_eq_none_iff e₂ k).mp hg) hk
      | some v => rw [hg] at hh; exact hh
  have hperm := keys_perm_of_mem_iff _ _ h₁ h₂ hmem
  have hlen : e₁.length = e₂.length := by
    have := hperm.length_eq
    simpa using this
  unfold entryEqv
  rw [Bool.and_eq_true]
  constructor
  · simp [hlen]
  · rw [List.all_eq_true]
    intro p hp
    show (match pyDictGet e₂ p.1 with
      | Option.some v => PyVal.beq p.2 v
      | Option.none => false) = true
    have hself : pyDictGet e₁ p.1 = Option.some p.2 := alistGet_self_of_nodup e₁ p hp h₁
    have hk := h p.1
    rw [hself] at hk
    cases hg : pyDictGet e₂ p.1 with
    | none => rw [hg] at hk; exact hk.elim
    | some w =>
        rw [hg] at hk
        exact hk

theorem entryListEqv_length (l₁ l₂ : List Entry) (h : entryListEqv l₁ l₂ = true) :
    l₁.length = l₂.length := by
  unfold entryListEqv at h
  rw [Bool.and_eq_true] at h
  exact eq_of_beq h.1

theorem zip_get?_inv {α β : Type} (l₁ : List α) (l₂ : List β) (i : Nat) (a : α) (b : β)
    (h : (l₁.zip l₂).get? i = Option.some (a, b)) :
    l₁.get? i = Option.some a ∧ l₂.get? i = Option.some b := by
  rw [zip_get?_eq] at h
  cases h₁ : l₁.get? i with
  | none => rw [h₁] at h; cases h
  | some x =>
      rw [h₁] at h
      cases h₂ : l₂.get? i with
      | none => rw [h₂] at h; cases h
      | some y =>
          rw [h₂] at h
          have hpair := Option.some.inj h
          have hx : x = a := congrArg Prod.fst hpair
          have hy : y = b := congrArg Prod.snd hpair
          exact ⟨congrArg Option.some hx, congrArg Option.some hy⟩

theorem entryListEqv_get (l₁ l₂ : List Entry) (h : entryListEqv l₁ l₂ = true)
    (i : Nat) (e₁ e₂ : Entry)
    (h₁ : l₁.get? i = Option.some e₁) (h₂ : l₂.get? i = Option.some e₂) :
    entryEqv e₁ e₂ = true := by
  unfold entryListEqv at h
  rw [Bool.and_eq_true] at h
  have hz : (l₁.zip l₂).get? i = Option.some (e₁, e₂) := by
    rw [zip_get?_eq, h₁, h₂]
    rfl
  exact List.all_eq_true.mp h.2 (e₁, e₂) (List.get?_mem hz)

theorem entryListEqv_of_pointwise (l₁ l₂ : List Entry) (hlen : l₁.length = l₂.length)
    (h : ∀ i e₁ e₂, l₁.get? i = Option.some e₁ → l₂.get? i = Option.some e₂ →
      entryEqv e₁ e₂ = true) :
    entryListEqv l₁ l₂ = true := by
  unfold entryListEqv
  rw [Bool.and_eq_true]
  constructor
  · simp [hlen]
  · rw [List.all_eq_true]
    rintro ⟨e₁, e₂⟩ hp
    obtain ⟨i, hi⟩ := List.mem_iff_get?.mp hp
    obtain ⟨h₁, h₂⟩ := zip_get?_inv l₁ l₂ i e₁ e₂ hi
    exact h i e₁ e₂ h₁ h₂

theorem rawDictEqv_parts (d₁ d₂ : RawDict) (h : rawDictEqv d₁ d₂ = true) :
    d₁.length = d₂.length ∧
    ∀ kv ∈ d₁, ∃ l₂, pyRawGet d₂ kv.1 = Option.some l₂ ∧ entryListEqv kv.2 l₂ = true := by
  unfold rawDictEqv at h
  rw [Bool.and_eq_true] at h
  refine ⟨eq_of_beq h.1, ?_⟩
  intro kv hkv
  have hq : (match pyRawGet d₂ kv.1 with
      | Option.some l => entryListEqv kv.2 l
      | Option.none => false) = true :=
    List.all_eq_true.mp h.2 kv hkv
  cases hg : pyRawGet d₂ kv.1 with
  | none => rw [hg] at hq; cases hq
  | some l₂ =>
      rw [hg] at hq
      exact ⟨l₂, rfl, hq⟩

theorem mappingEq_of_eqv (d₁ d₂ : RawDict) (h : rawDictEqv d₁ d₂ = true)
    (w₁ : rawWF d₁ = true) (w₂ : rawWF d₂ = true) : MappingEq d₁ d₂ := by
  obtain ⟨hlen, hall⟩ := rawDictEqv_parts d₁ d₂ h
  intro k
  cases hg : pyRawGet d₁ k with
  | some l₁ =>
      obtain ⟨kv, hkv, hkvk, hkvl⟩ := pyRawGet_some_mem d₁ k l₁ hg
      obtain ⟨l₂, hg2, helv⟩ := hall kv hkv
      rw [hkvk] at hg2
      rw [hg2]
      refine ⟨hkvl ▸ entryListEqv_length _ _ helv, ?_⟩
      intro i e₁ e₂ he₁ he₂
      obtain ⟨kv₂, hkv₂, _, hkvl₂⟩ := pyRawGet_some_mem d₂ k l₂ hg2
      refine entry_mapEq_of_eqv e₁ e₂
        (entryListEqv_get _ _ helv i e₁ e₂ (hkvl ▸ he₁) he₂) ?_ ?_
      · exact rawWF_entry d₁ w₁ kv hkv e₁ (hkvl ▸ List.get?_mem he₁)
      · exact rawWF_entry d₂ w₂ kv₂ hkv₂ e₂ (hkvl₂ ▸ List.get?_mem he₂)
  | none =>
      have hnot1 : k ∉ d₁.map Prod.fst := (pyRawGet_eq_none_iff d₁ k).mp hg
      have hsub : d₁.map Prod.fst ⊆ d₂.map Prod.fst := by
        intro x hx
        obtain ⟨kv, hkv, hkvx⟩ := List.mem_map.mp hx
        obtain ⟨l₂, hg2, _⟩ := hall kv hkv
        obtain ⟨kv₂, hkv₂, hkv₂k, _⟩ := pyRawGet_some_mem d₂ kv.1 l₂ hg2
        exact hkvx ▸ hkv₂k ▸ List.mem_map_of_mem Prod.fst hkv₂
      have hlen2 : (d₂.map Prod.fst).length ≤ (d₁.map Prod.fst).length := by
        simp [hlen]
      have hg2 : pyRawGet d₂ k = Option.none := by
        rw [pyRawGet_eq_none_iff]
        intro hk2
        exact hnot1 (mem_of_mem_of_subset_nodup _ _ (rawWF_nodup d₁ w₁) hsub hlen2 k hk2)
      rw [hg2]
      trivial

theorem eqv_of_mappingEq (d₁ d₂ : RawDict) (h : MappingEq d₁ d₂)
    (w₁ : rawWF d₁ = true) (w₂ : rawWF d₂ = true) : rawDictEqv d₁ d₂ = true := by
  have hmem : ∀ k, k ∈ d₁.map Prod.fst ↔ k ∈ d₂.map Prod.fst := by
    intro k
    constructor
    · intro hk
      by_contra hk2
      have hn2 : pyRawGet d₂ k = Option.none := (pyRawGet_eq_none_iff d₂ k).mpr hk2
      have hh := h k
      rw [hn2] at hh
      cases hg : pyRawGet d₁ k with
      | none => exact ((pyRawGet_eq_none_iff d₁ k).mp hg) hk
      | some l => rw [hg] at hh; exact hh
    · intro hk
      by_contra hk2
      have hn1 : pyRawGet d₁ k = Option.none := (pyRawGet_eq_none_iff d₁ k).mpr hk2
      have hh := h k
      rw [hn1] at hh
      cases hg : pyRawGet d₂ k with
      | none => exact ((pyRawGet_eq_none_iff d₂ k).mp hg) hk
      | some l => rw [hg] at hh; exact hh
  have hperm := keys_perm_of_mem_iff _ _ (rawWF_nodup d₁ w₁) (rawWF_nodup d₂ w₂) hmem
  have hlen : d₁.length = d₂.length := by
    have := hperm.length_eq
    simpa using this
  unfold rawDictEqv
  rw [Bool.and_eq_true]
  constructor
  · simp [hlen]
  · rw [List.all_eq_true]
    intro kv hkv
    show (match pyRawGet d₂ kv.1 with
      | Option.some l => entryListEqv kv.2 l
      | Option.none => false) = true
    have hself : pyRawGet d₁ kv.1 = Option.some kv.2 :=
      pyRawGet_self_of_nodup d₁ kv hkv (rawWF_nodup d₁ w₁)
    have hb := h kv.1
    rw [hself] at hb
    cases hg : pyRawGet d₂ kv.1 with
    | none => rw [hg] at hb; exact hb.elim
    | some l₂ =>
        rw [hg] at hb
        obtain ⟨hbl, hbp⟩ := hb
        refine entryListEqv_of_pointwise kv.2 l₂ hbl ?_
        intro i e₁ e₂ he₁ he₂
        obtain ⟨kv₂, hkv₂, _, hkvl₂⟩ := pyRawGet_some_mem d₂ kv.1 l₂ hg
        refine entry_eqv_of_mapEq e₁ e₂ (hbp i e₁ e₂ he₁ he₂) ?_ ?_
        · exact rawWF_entry d₁ w₁ kv hkv e₁ (List.get?_mem he₁)
        · exact rawWF_entry d₂ w₂ kv₂ hkv₂ e₂ (hkvl₂ ▸ List.get?_mem he₂)

theorem mappingEq_refl (d : RawDict) : MappingEq d d := by
  intro k
  cases hg : pyRawGet d k with
  | none => trivial
  | some l =>
      refine ⟨rfl, ?_⟩
      intro i e₁ e₂ h₁ h₂
      rw [h₁] at h₂
      have he := Option.some.inj h₂
      intro k'
      rw [← he]
      cases hq : pyDictGet e₁ k' with
      | some v => exact PyVal.beq_refl v
      | none => trivial

/-- **C5.** Serializing a registry with `to_dict` and constructing a new
registry from the output (even over a different mesh) yields a registry
equal to the original; registry equality (`__eq__`, Python dict equality of
the raw dictionaries) holds exactly when the two raw dictionaries are
deeply equal as mappings — same keys, same entry lists — regardless of
insertion order, the owning mesh, or any derived cache state (derived views
are pure functions here, so no cache participates in `__eq__`); and two
registries whose raw data differ in a single entry's attribute value
compare unequal.  Well-formedness (`rawWF`): Python dicts never repeat a
key, which the association-list model must assume. -/
theorem registry_roundtrip_and_mapping_equality (b₁ b₂ : Fort14Boundaries) (m' : Mesh)
    (h₁ : rawWF b₁._data = true) (h₂ : rawWF b₂._data = true) :
    Fort14Boundaries.beqPy (mkFort14Boundaries m' (Option.some b₁.toDict)) b₁ = true ∧
    (Fort14Boundaries.beqPy b₁ b₂ = true ↔ MappingEq b₁._data b₂._data) ∧
    (∀ k i ak l₁ l₂ e₁ e₂ v₁ v₂,
      pyRawGet b₁._data k = Option.some l₁ → pyRawGet b₂._data k = Option.some l₂ →
      l₁.get? i = Option.some e₁ → l₂.get? i = Option.some e₂ →
      pyDictGet e₁ ak = Option.some v₁ → pyDictGet e₂ ak = Option.some v₂ →
      PyVal.beq v₁ v₂ = false →
      Fort14Boundaries.beqPy b₁ b₂ = false) := by
  refine ⟨?_, ?_, ?_⟩
  · exact eqv_of_mappingEq b₁._data b₁._data (mappingEq_refl b₁._data) h₁ h₁
  · exact ⟨fun hq => mappingEq_of_eqv _ _ hq h₁ h₂,
      fun hm => eqv_of_mappingEq _ _ hm h₁ h₂⟩
  · intro k i ak l₁ l₂ e₁ e₂ v₁ v₂ hl₁ hl₂ he₁ he₂ hv₁ hv₂ hne
    cases hq : Fort14Boundaries.beqPy b₁ b₂ with
    | false => rfl
    | true =>
        exfalso
        have hm := mappingEq_of_eqv _ _ hq h₁ h₂
        have hb := hm k
        rw [hl₁, hl₂] at hb
        obtain ⟨_, hp⟩ := hb
        have hme := (hp i e₁ e₂ he₁ he₂) ak
        rw [hv₁, hv₂] at hme
        have hme2 : PyVal.beq v₁ v₂ = true := hme
        rw [hne] at hme2
        cases hme2

/-- The C5 witness registry. -/
def bW1 : Fort14Boundaries :=
  ⟨[(Option.some "20", [[("node_id", PyVal.mkList [.int 1]), ("h", PyVal.int 5)]])], ⟨[]⟩⟩

/-- The C5 witness registry differing from `bW1` only in the `"h"`
attribute value of its single entry. -/
def bW2 : Fort14Boundaries :=
  ⟨[(Option.some "20", [[("node_id", PyVal.mkList [.int 1]), ("h", PyVal.int 6)]])], ⟨[]⟩⟩

theorem registry_roundtrip_and_mapping_equality_witness :
    Fort14Boundaries.beqPy (mkFort14Boundaries ⟨[]⟩ (Option.some bW1.toDict)) bW1 = true ∧
    Fort14Boundaries.beqPy bW1 bW2 = false := by
  have h := registry_roundtrip_and_mapping_equality bW1 bW2 ⟨[]⟩ (by decide) (by decide)
  refine ⟨h.1, ?_⟩
  exact h.2.2 (Option.some "20") 0 "h"
    [[("node_id", PyVal.mkList [.int 1]), ("h", PyVal.int 5)]]
    [[("node_id", PyVal.mkList [.int 1]), ("h", PyVal.int 6)]]
    [("node_id", PyVal.mkList [.int 1]), ("h", PyVal.int 5)]
    [("node_id", PyVal.mkList [.int 1]), ("h", PyVal.int 6)]
    (PyVal.int 5) (PyVal.int 6) rfl rfl rfl rfl rfl rfl rfl
